import Mathlib

/-!
Verification of the FeatherFlow model-and-graph subsystem.

This file gives a shallow embedding, in Lean 4, of the parts of the
FeatherFlow source that the specification talks about:

* the unique-id derivation of `extract_file_metadata`
  (src/feather_flow/src/sql_engine/sql_model.rs);
* the directory-structure validator `validate_model_structure`
  (src/feather_flow/src/validators/mod.rs);
* the SQL reference extractor (src/feather_flow/src/sql_engine/extractors.rs);
* `SqlModelCollection`, `build_dependency_graph`, `calculate_model_depths`,
  `detect_cycles` and the YAML emission order of `to_yaml`
  (src/feather_flow/src/sql_engine/sql_model.rs).

Strings are modelled as `String` or `List Char`; Rust `HashMap`s are
modelled as association lists where `insert` prepends and lookup takes the
first hit (so the newest insertion wins, as in `HashMap::insert`);
Rust `HashSet`s are modelled as duplicate-free insertion lists, all claims
being about membership only.  The iterative depth loop, a `while` loop in
the source, is modelled with explicit fuel together with a boolean that
records whether the loop reached its exit condition (no changes made by
the last pass) within the fuel.
-/

namespace FF

/-! ## Association-list primitives (model of HashMap) -/

/-- First-match lookup in an association list.  Models `HashMap::get` when
insertions prepend (newest first). -/
def alook {α : Type} (k : String) : List (String × α) → Option α
  | [] => none
  | p :: rest => if p.1 = k then some p.2 else alook k rest

@[simp] theorem alook_nil {α : Type} (k : String) : alook (α := α) k [] = none := rfl

@[simp] theorem alook_cons {α : Type} (k : String) (p : String × α) (l : List (String × α)) :
    alook k (p :: l) = if p.1 = k then some p.2 else alook k l := rfl

theorem alook_append {α : Type} (k : String) (l₁ l₂ : List (String × α)) :
    alook k (l₁ ++ l₂) =
      match alook k l₁ with
      | some v => some v
      | none => alook k l₂ := by
  induction l₁ with
  | nil => simp
  | cons p rest ih =>
    by_cases h : p.1 = k <;> simp [h, ih]

theorem alook_mem {α : Type} {k : String} {v : α} {l : List (String × α)} :
    alook k l = some v → (k, v) ∈ l := by
  induction l with
  | nil => simp [alook]
  | cons p rest ih =>
    by_cases h : p.1 = k
    · simp only [alook_cons, h, if_pos]
      rintro h2
      cases h2
      subst h
      simp
    · simp only [alook_cons, h, if_neg, not_false_iff]
      intro h2
      exact List.mem_cons_of_mem _ (ih h2)

theorem alook_isSome_of_mem_keys {α : Type} {k : String} {l : List (String × α)} :
    k ∈ l.map Prod.fst → (alook k l).isSome := by
  induction l with
  | nil => simp
  | cons p rest ih =>
    intro h
    by_cases hk : p.1 = k
    · simp [alook, hk]
    · simp only [List.map_cons, List.mem_cons] at h
      rcases h with h | h
      · exact absurd h.symm hk
      · simpa [alook, hk] using ih h

theorem mem_keys_of_alook_isSome {α : Type} {k : String} {l : List (String × α)} :
    (alook k l).isSome → k ∈ l.map Prod.fst := by
  induction l with
  | nil => simp [alook]
  | cons p rest ih =>
    by_cases hk : p.1 = k
    · intro _; simp [hk.symm]
    · intro h
      simp only [alook_cons, hk, if_neg, not_false_iff] at h
      simpa using Or.inr (ih h)

/-- Insertion into a set modelled as a duplicate-free list.
Models `HashSet::insert`. -/
def insertSet (x : String) (l : List String) : List String :=
  if x ∈ l then l else l ++ [x]

theorem insertSet_mem {x y : String} {l : List String} :
    y ∈ insertSet x l ↔ y = x ∨ y ∈ l := by
  unfold insertSet
  by_cases h : x ∈ l
  · simp only [h, if_pos]
    constructor
    · exact Or.inr
    · rintro (rfl | hy)
      · exact h
      · exact hy
  · simp only [h, if_neg, not_false_iff, List.mem_append, List.mem_singleton]
    tauto

/-! ## C9: unique-id derivation from a model file path.

Source: `extract_file_metadata` in sql_model.rs builds
`format!("model.{}", relative_path.to_string_lossy().replace(['/', '\\'], ".").replace(".sql", ""))`.
Paths are modelled as `List Char`. -/

/-- Model of `.replace(['/', '\\'], ".")`: each separator character becomes
a dot. -/
def sepToDot (s : List Char) : List Char :=
  s.map (fun c => if c = '/' ∨ c = '\\' then '.' else c)

/-- Model of Rust `str::replace(".sql", "")`: scan left to right and delete
every (non-overlapping, leftmost) occurrence of the pattern `.sql`. -/
def removeSql : List Char → List Char
  | [] => []
  | '.' :: 's' :: 'q' :: 'l' :: rest => removeSql rest
  | c :: rest => c :: removeSql rest

/-- Substring test for the pattern `.sql`, with the same scan order as
`removeSql`. -/
def hasSql : List Char → Bool
  | [] => false
  | c :: rest => (decide (c = '.' ∧ rest.take 3 = ['s', 'q', 'l'])) || hasSql rest

/-- The pattern `.sql` as a character list. -/
def sqlPat : List Char := ['.', 's', 'q', 'l']

/-- The unique id the code derives from the path relative to the project
root: `model.` + separators-to-dots + delete every `.sql`. -/
def uniqueIdChars (rel : List Char) : List Char :=
  "model.".toList ++ removeSql (sepToDot rel)

/-- Modelled from the spec's words (for comparison with `uniqueIdChars`):
"substituting path separators with a dot and removing the `.sql` suffix,
prefixed with `model.`" — only a trailing `.sql` is removed. -/
def specUniqueIdChars (rel : List Char) : List Char :=
  let dotted := sepToDot rel
  "model.".toList ++
    (if sqlPat.isSuffixOf dotted then dotted.take (dotted.length - 4) else dotted)

theorem hasSql_cons {c : Char} {q : List Char} :
    hasSql (c :: q) = false ↔
      ¬(c = '.' ∧ q.take 3 = ['s', 'q', 'l']) ∧ hasSql q = false := by
  simp [hasSql]

theorem removeSql_cons_of_not_head {c : Char} {q : List Char}
    (h : hasSql (c :: q) = false) :
    removeSql (c :: (q ++ sqlPat)) = c :: removeSql (q ++ sqlPat) := by
  match q with
  | [] =>
    rw [removeSql.eq_def]
    split
    · simp_all
    · rename_i heq; exact absurd heq (by simp [sqlPat])
    · rename_i heq
      injection heq with h1 h2
      subst h1; subst h2; rfl
  | [a] =>
    rw [removeSql.eq_def]
    split
    · simp_all
    · rename_i heq; exact absurd heq (by simp [sqlPat])
    · rename_i heq
      injection heq with h1 h2
      subst h1; subst h2; rfl
  | [a, b] =>
    rw [removeSql.eq_def]
    split
    · simp_all
    · rename_i heq; exact absurd heq (by simp [sqlPat])
    · rename_i heq
      injection heq with h1 h2
      subst h1; subst h2; rfl
  | a :: b :: d :: t =>
    rw [removeSql.eq_def]
    split
    · simp_all
    · rename_i heq
      -- the head four characters would have to be `.sql`, which would make
      -- `hasSql (c :: q)` true
      exfalso
      injection heq with h1 heq
      injection heq with h2 heq
      injection heq with h3 heq
      injection heq with h4 heq
      subst h1; subst h2; subst h3; subst h4
      rw [hasSql_cons] at h
      exact h.1 ⟨rfl, by simp⟩
    · rename_i heq
      injection heq with h1 h2
      subst h1; subst h2; rfl

theorem removeSql_append_pat {q : List Char} (h : hasSql q = false) :
    removeSql (q ++ sqlPat) = q := by
  induction q with
  | nil => rfl
  | cons c rest ih =>
    show removeSql (c :: (rest ++ sqlPat)) = c :: rest
    rw [removeSql_cons_of_not_head h]
    rw [ih (hasSql_cons.mp h).2]

/-- C9 (amended part): whenever the dotted relative path ends in `.sql` and
contains no other occurrence of `.sql`, the code's unique id agrees with the
spec's "remove the trailing `.sql` suffix" description. -/
theorem uniqueId_eq_spec_of_single_suffix (rel q : List Char)
    (hsplit : sepToDot rel = q ++ sqlPat) (hq : hasSql q = false) :
    uniqueIdChars rel = "model.".toList ++ q ∧
      specUniqueIdChars rel = "model.".toList ++ q := by
  constructor
  · unfold uniqueIdChars
    rw [hsplit, removeSql_append_pat hq]
  · unfold specUniqueIdChars
    rw [hsplit]
    have hsuf : sqlPat.isSuffixOf (q ++ sqlPat) := by
      rw [List.isSuffixOf_iff_suffix]
      exact List.suffix_append q sqlPat
    simp only [hsuf, if_pos]
    have hlen : (q ++ sqlPat).length - 4 = q.length := by
      simp [sqlPat]
    rw [hlen, List.take_left]

/-- C9 witness: a typical path, whose only `.sql` is the trailing suffix. -/
theorem uniqueId_eq_spec_witness :
    uniqueIdChars "staging/stg_customers.sql".toList =
        "model.staging.stg_customers".toList ∧
      specUniqueIdChars "staging/stg_customers.sql".toList =
        "model.staging.stg_customers".toList := by
  have h := uniqueId_eq_spec_of_single_suffix "staging/stg_customers.sql".toList
    "staging.stg_customers".toList (by decide) (by decide)
  constructor
  · rw [h.1]; decide
  · rw [h.2]; decide

/-- C9 counterexample: a path whose directory name also contains `.sql`.
The code removes every occurrence of `.sql`, not only the trailing suffix,
so the derived id differs from the spec's description. -/
theorem uniqueId_ne_spec_counterexample :
    uniqueIdChars "a.sql.b/m.sql".toList = "model.a.b.m".toList ∧
      specUniqueIdChars "a.sql.b/m.sql".toList = "model.a.sql.b.m".toList ∧
      uniqueIdChars "a.sql.b/m.sql".toList ≠
        specUniqueIdChars "a.sql.b/m.sql".toList := by
  refine ⟨by decide, by decide, by decide⟩

/-! ## C8: the directory-structure validator.

Source: `validate_model_structure` in validators/mod.rs.  A directory is
modelled by its path string (a `List Char`) and the list of names of the
regular files it contains; the embedding models the happy path in which the
path is an existing, readable directory. -/

/-- Substring test: does `pat` occur anywhere in the second list?
Models Rust `str::contains`. -/
def containsSub (pat : List Char) : List Char → Bool
  | [] => pat.isEmpty
  | c :: rest => pat.isPrefixOf (c :: rest) || containsSub pat rest

/-- The final path component: everything after the last `/`.
Models `Path::file_name` for paths that do not end in a separator. -/
def lastComponent (p : List Char) : List Char :=
  (p.reverse.takeWhile (fun c => c ≠ '/')).reverse

/-- Model of `Path::file_name`: `none` for an empty final component or a
final `..`. -/
def fileName (p : List Char) : Option (List Char) :=
  let lc := lastComponent p
  if lc = [] ∨ lc = "..".toList then none else some lc

/-- The `is_imports` test the validator performs on the path *string*:
it contains `/imports/` or ends with `/imports`. -/
def isImportsPath (p : List Char) : Bool :=
  containsSub "/imports/".toList p || "/imports".toList.isSuffixOf p

/-- The validator's error messages, abstracted from their formatted text. -/
inductive VError where
  | notADirectory
  | noDirName
  | missingSqlFile
  | missingYamlFile
  | unexpectedFileImports (name : List Char)
  | unexpectedFileModel (name : List Char)
deriving DecidableEq

/-- Model of the `ValidationResult` struct (path field omitted). -/
structure ValidationResult where
  isValid : Bool
  errors : List VError
deriving DecidableEq

/-- Model of `validate_model_structure` for an existing, readable directory
whose regular files are `files`: requires `<name>.sql` (unless the path is
an imports path) and `<name>.yml`, and flags every other file. -/
def validateModelStructure (path : List Char) (files : List (List Char)) :
    ValidationResult :=
  match fileName path with
  | none => ⟨false, [VError.noDirName]⟩
  | some dirName =>
    let expectedSql := dirName ++ ".sql".toList
    let expectedYml := dirName ++ ".yml".toList
    let e1 := if isImportsPath path then []
      else if expectedSql ∈ files then [] else [VError.missingSqlFile]
    let e2 := if expectedYml ∈ files then [] else [VError.missingYamlFile]
    let e3 := files.filterMap (fun f =>
      if f = expectedYml ∨ (isImportsPath path = false ∧ f = expectedSql) then
        none
      else if isImportsPath path then some (VError.unexpectedFileImports f)
      else some (VError.unexpectedFileModel f))
    let errs := e1 ++ e2 ++ e3
    ⟨errs.isEmpty, errs⟩

theorem validateImports_errors {path : List Char} {files : List (List Char)}
    {dn : List Char} (hfn : fileName path = some dn)
    (himp : isImportsPath path = true) :
    (validateModelStructure path files).errors =
      (if dn ++ ".yml".toList ∈ files then [] else [VError.missingYamlFile]) ++
        files.filterMap (fun f =>
          if f = dn ++ ".yml".toList then none
          else some (VError.unexpectedFileImports f)) := by
  unfold validateModelStructure
  rw [hfn]
  simp [himp]

/-- C8 (amended): for every directory path whose string contains
`/imports/` or *ends with the string* `/imports`, the validator requires
only `<name>.yml`: no missing-SQL error is possible, a missing-YAML error
occurs exactly when `<name>.yml` is absent, and a file is flagged as
unexpected exactly when it is not `<name>.yml`. -/
theorem validateModelStructure_imports (path : List Char)
    (files : List (List Char)) (dn : List Char)
    (hfn : fileName path = some dn) (himp : isImportsPath path = true) :
    VError.missingSqlFile ∉ (validateModelStructure path files).errors ∧
      (VError.missingYamlFile ∈ (validateModelStructure path files).errors ↔
        dn ++ ".yml".toList ∉ files) ∧
      (∀ f, VError.unexpectedFileImports f ∈
          (validateModelStructure path files).errors ↔
        (f ∈ files ∧ f ≠ dn ++ ".yml".toList)) := by
  rw [validateImports_errors hfn himp]
  refine ⟨?_, ?_, ?_⟩
  · simp only [List.mem_append, List.mem_filterMap]
    rintro (h | ⟨g, hg, hcond⟩)
    · by_cases hy : dn ++ ".yml".toList ∈ files <;> simp [hy] at h
    · by_cases hg2 : g = dn ++ ".yml".toList <;> simp [hg2] at hcond
  · by_cases hy : dn ++ ".yml".toList ∈ files
    · simp only [hy, if_pos, List.nil_append, List.mem_filterMap, not_true,
        iff_false, not_exists]
      intro g
      rintro ⟨hg, hcond⟩
      by_cases hg2 : g = dn ++ ".yml".toList <;> simp [hg2] at hcond
    · simp [hy]
  · intro f
    simp only [List.mem_append, List.mem_filterMap]
    constructor
    · rintro (h | ⟨g, hg, hcond⟩)
      · by_cases hy : dn ++ ".yml".toList ∈ files <;> simp [hy] at h
      · by_cases hg2 : g = dn ++ ".yml".toList
        · simp [hg2] at hcond
        · simp only [hg2, if_neg, not_false_iff, Option.some.injEq] at hcond
          cases hcond
          exact ⟨hg, hg2⟩
    · rintro ⟨hf, hne⟩
      refine Or.inr ⟨f, hf, ?_⟩
      simp only [hne, if_neg, not_false_iff]

/-- C8 witness: a path below an imports tree, holding only its `.yml`. -/
theorem validateModelStructure_imports_witness :
    (fileName "models/imports/raw".toList = some "raw".toList ∧
        isImportsPath "models/imports/raw".toList = true) ∧
      VError.missingSqlFile ∉
        (validateModelStructure "models/imports/raw".toList
          ["raw.yml".toList]).errors ∧
      (VError.missingYamlFile ∈
          (validateModelStructure "models/imports/raw".toList
            ["raw.yml".toList]).errors ↔
        "raw.yml".toList ∉ ["raw.yml".toList]) := by
  refine ⟨⟨by decide, by decide⟩, ?_⟩
  have h := validateModelStructure_imports "models/imports/raw".toList
    ["raw.yml".toList] "raw".toList (by decide) (by decide)
  exact ⟨h.1, h.2.1⟩

/-- C8 counterexample: the bare relative path `imports` has final component
`imports` (the claim's condition holds), yet the code's string test
`contains "/imports/" or ends_with "/imports"` is false, so the validator
demands `imports.sql` and reports a missing-SQL error — the claim says a
missing `<name>.sql` is not an error for such a directory. -/
theorem validateModelStructure_imports_counterexample :
    lastComponent "imports".toList = "imports".toList ∧
      isImportsPath "imports".toList = false ∧
      (validateModelStructure "imports".toList ["imports.yml".toList]).errors =
        [VError.missingSqlFile] ∧
      (validateModelStructure "imports".toList
          ["imports.yml".toList]).isValid = false := by
  refine ⟨by decide, by decide, by decide, by decide⟩

/-! ## C6: the SQL reference extractor.

Source: extractors.rs.  The AST fragment below mirrors exactly the
sqlparser shapes the extractor dispatches on; every variant the extractor
skips with a `_ => {}` arm is collapsed into an `other` constructor.
Lists and options inside the AST are inlined as mutual types so that all
recursion is structural. -/

mutual

inductive Query where
  | mk (ctes : CteList) (body : SetExpr)

inductive CteList where
  | nil
  | cons (aliasName : String) (cteBody : Query) (rest : CteList)

inductive SetExpr where
  | select (s : Sel)
  | query (q : Query)
  | setOp (l r : SetExpr)
  | other

inductive Sel where
  | mk (fromItems : TwjList) (selection : ExprOpt) (projection : ItemList)
      (having : ExprOpt)

inductive TwjList where
  | nil
  | cons (t : Twj) (rest : TwjList)

inductive Twj where
  | mk (relation : Rel) (joins : RelList)

inductive RelList where
  | nil
  | cons (r : Rel) (rest : RelList)

inductive Rel where
  | table (name : String)
  | derived (sub : Query)
  | tableFunc (e : Expr)
  | nestedJoin (t : Twj)
  | otherRel

inductive ItemList where
  | nil
  | cons (i : Item) (rest : ItemList)

inductive Item where
  | exprWithAlias (e : Expr)
  | unnamedExpr (e : Expr)
  | otherItem

inductive ExprOpt where
  | noneE
  | someE (e : Expr)

inductive Expr where
  | subquery (q : Query)
  | binaryOp (l r : Expr)
  | unaryOp (e : Expr)
  | cast (e : Expr)
  | inSubquery (q : Query)
  | inList (l : ExprList)
  | funcCall (name : String)
  | caseExpr (operand : ExprOpt) (conditions : ExprList) (results : ExprList)
      (elseResult : ExprOpt)
  | otherExpr

inductive ExprList where
  | nil
  | cons (e : Expr) (rest : ExprList)

end

/-- A statement: the extractor only looks inside `Statement::Query`. -/
inductive Stmt where
  | query (q : Query)
  | otherStmt

/-- The built-in function filter of `extract_tables_from_expr`. -/
def commonSqlFunctions : List String :=
  ["COUNT", "SUM", "AVG", "MIN", "MAX", "DATE", "TIME", "TIMESTAMP",
   "EXTRACT", "CONCAT", "SUBSTRING", "UPPER", "LOWER", "COALESCE", "NULLIF",
   "CAST", "CONVERT", "ROUND", "FLOOR", "CEILING", "ABS", "DATE_TRUNC",
   "DATE_PART", "DATE_DIFF", "DATE_ADD", "DATE_SUB", "CURRENT_DATE",
   "CURRENT_TIME", "CURRENT_TIMESTAMP", "CASE", "IF", "IFNULL", "NVL", "IIF"]

mutual

/-- Model of `extract_tables_from_query` (CTEs first, then the body). -/
def tablesQuery : Query → List String
  | .mk ctes body => tablesCtes ctes ++ tablesBody body

/-- The CTE loop: record the alias, then recurse into the CTE's body. -/
def tablesCtes : CteList → List String
  | .nil => []
  | .cons a q rest => (a :: tablesQuery q) ++ tablesCtes rest

/-- The body dispatch inside `extract_tables_from_query`: a `Select` is
visited in full; set operations go through `extract_tables_from_set_expr`. -/
def tablesBody : SetExpr → List String
  | .select s => tablesSelRich s
  | .query q => tablesQuery q
  | .setOp l r => tablesSet l ++ tablesSet r
  | .other => []

/-- The `Select` visit of `extract_tables_from_query`: FROM items and their
joins, WHERE, each projected expression, HAVING. -/
def tablesSelRich : Sel → List String
  | .mk f sel proj hav =>
    tablesTwjList f ++ tablesExprOpt sel ++ tablesItems proj ++
      tablesExprOpt hav

/-- Model of `extract_tables_from_set_expr`: its `Select` arm visits only
the FROM items and the WHERE clause. -/
def tablesSet : SetExpr → List String
  | .select s => tablesSelPoor s
  | .query q => tablesQuery q
  | .setOp l r => tablesSet l ++ tablesSet r
  | .other => []

/-- The `Select` arm of `extract_tables_from_set_expr`. -/
def tablesSelPoor : Sel → List String
  | .mk f sel _ _ => tablesTwjList f ++ tablesExprOpt sel

def tablesTwjList : TwjList → List String
  | .nil => []
  | .cons t rest => tablesTwj t ++ tablesTwjList rest

/-- One FROM item: the head relation, then each JOIN relation. -/
def tablesTwj : Twj → List String
  | .mk r js => tablesRel r ++ tablesRelList js

def tablesRelList : RelList → List String
  | .nil => []
  | .cons r rest => tablesRel r ++ tablesRelList rest

/-- Model of `extract_table_from_relation`. -/
def tablesRel : Rel → List String
  | .table n => [n]
  | .derived q => tablesQuery q
  | .tableFunc e => tablesExpr e
  | .nestedJoin t => tablesTwj t
  | .otherRel => []

def tablesItems : ItemList → List String
  | .nil => []
  | .cons i rest => tablesItem i ++ tablesItems rest

/-- Projection items: only expressions (aliased or not) are walked. -/
def tablesItem : Item → List String
  | .exprWithAlias e => tablesExpr e
  | .unnamedExpr e => tablesExpr e
  | .otherItem => []

def tablesExprOpt : ExprOpt → List String
  | .noneE => []
  | .someE e => tablesExpr e

/-- Model of `extract_tables_from_expr`. -/
def tablesExpr : Expr → List String
  | .subquery q => tablesQuery q
  | .binaryOp l r => tablesExpr l ++ tablesExpr r
  | .unaryOp e => tablesExpr e
  | .cast e => tablesExpr e
  | .inSubquery q => tablesQuery q
  | .inList l => tablesExprList l
  | .funcCall n =>
    if n.toUpper ∈ commonSqlFunctions then [] else [n]
  | .caseExpr op conds res els =>
    tablesExprOpt op ++ tablesExprList conds ++ tablesExprList res ++
      tablesExprOpt els
  | .otherExpr => []

def tablesExprList : ExprList → List String
  | .nil => []
  | .cons e rest => tablesExpr e ++ tablesExprList rest

end

/-- Model of `get_table_names`: only `Statement::Query` statements are
visited. -/
def getTableNames : List Stmt → List String
  | [] => []
  | .query q :: rest => tablesQuery q ++ getTableNames rest
  | .otherStmt :: rest => getTableNames rest

/-- Model of Rust `str::contains('.')`. -/
def containsDot (t : String) : Bool :=
  t.toList.any (fun c => c == '.')

/-- Model of `get_external_table_deps`: keep only names containing a dot. -/
def getExternalTableDeps (ss : List Stmt) : List String :=
  (getTableNames ss).filter containsDot

mutual

/-- All CTE aliases declared anywhere in a query (full syntactic walk). -/
def aliasQuery : Query → List String
  | .mk ctes body => aliasCtes ctes ++ aliasSet body

def aliasCtes : CteList → List String
  | .nil => []
  | .cons a q rest => (a :: aliasQuery q) ++ aliasCtes rest

def aliasSet : SetExpr → List String
  | .select s => aliasSel s
  | .query q => aliasQuery q
  | .setOp l r => aliasSet l ++ aliasSet r
  | .other => []

def aliasSel : Sel → List String
  | .mk f sel proj hav =>
    aliasTwjList f ++ aliasExprOpt sel ++ aliasItems proj ++ aliasExprOpt hav

def aliasTwjList : TwjList → List String
  | .nil => []
  | .cons t rest => aliasTwj t ++ aliasTwjList rest

def aliasTwj : Twj → List String
  | .mk r js => aliasRel r ++ aliasRelList js

def aliasRelList : RelList → List String
  | .nil => []
  | .cons r rest => aliasRel r ++ aliasRelList rest

def aliasRel : Rel → List String
  | .table _ => []
  | .derived q => aliasQuery q
  | .tableFunc e => aliasExpr e
  | .nestedJoin t => aliasTwj t
  | .otherRel => []

def aliasItems : ItemList → List String
  | .nil => []
  | .cons i rest => aliasItem i ++ aliasItems rest

def aliasItem : Item → List String
  | .exprWithAlias e => aliasExpr e
  | .unnamedExpr e => aliasExpr e
  | .otherItem => []

def aliasExprOpt : ExprOpt → List String
  | .noneE => []
  | .someE e => aliasExpr e

def aliasExpr : Expr → List String
  | .subquery q => aliasQuery q
  | .binaryOp l r => aliasExpr l ++ aliasExpr r
  | .unaryOp e => aliasExpr e
  | .cast e => aliasExpr e
  | .inSubquery q => aliasQuery q
  | .inList l => aliasExprList l
  | .funcCall _ => []
  | .caseExpr op conds res els =>
    aliasExprOpt op ++ aliasExprList conds ++ aliasExprList res ++
      aliasExprOpt els
  | .otherExpr => []

def aliasExprList : ExprList → List String
  | .nil => []
  | .cons e rest => aliasExpr e ++ aliasExprList rest

end

/-- CTE aliases declared anywhere in a statement list. -/
def cteAliasesStmts : List Stmt → List String
  | [] => []
  | .query q :: rest => aliasQuery q ++ cteAliasesStmts rest
  | .otherStmt :: rest => cteAliasesStmts rest

mutual

/-- No set operation occurs anywhere in the query. -/
def nsQuery : Query → Bool
  | .mk ctes body => nsCtes ctes && nsSet body

def nsCtes : CteList → Bool
  | .nil => true
  | .cons _ q rest => nsQuery q && nsCtes rest

def nsSet : SetExpr → Bool
  | .select s => nsSel s
  | .query q => nsQuery q
  | .setOp _ _ => false
  | .other => true

def nsSel : Sel → Bool
  | .mk f sel proj hav =>
    nsTwjList f && nsExprOpt sel && nsItems proj && nsExprOpt hav

def nsTwjList : TwjList → Bool
  | .nil => true
  | .cons t rest => nsTwj t && nsTwjList rest

def nsTwj : Twj → Bool
  | .mk r js => nsRel r && nsRelList js

def nsRelList : RelList → Bool
  | .nil => true
  | .cons r rest => nsRel r && nsRelList rest

def nsRel : Rel → Bool
  | .table _ => true
  | .derived q => nsQuery q
  | .tableFunc e => nsExpr e
  | .nestedJoin t => nsTwj t
  | .otherRel => true

def nsItems : ItemList → Bool
  | .nil => true
  | .cons i rest => nsItem i && nsItems rest

def nsItem : Item → Bool
  | .exprWithAlias e => nsExpr e
  | .unnamedExpr e => nsExpr e
  | .otherItem => true

def nsExprOpt : ExprOpt → Bool
  | .noneE => true
  | .someE e => nsExpr e

def nsExpr : Expr → Bool
  | .subquery q => nsQuery q
  | .binaryOp l r => nsExpr l && nsExpr r
  | .unaryOp e => nsExpr e
  | .cast e => nsExpr e
  | .inSubquery q => nsQuery q
  | .inList l => nsExprList l
  | .funcCall _ => true
  | .caseExpr op conds res els =>
    nsExprOpt op && nsExprList conds && nsExprList res && nsExprOpt els
  | .otherExpr => true

def nsExprList : ExprList → Bool
  | .nil => true
  | .cons e rest => nsExpr e && nsExprList rest

end

/-- No set operation occurs anywhere in the statement list. -/
def noSetOpStmts : List Stmt → Bool
  | [] => true
  | .query q :: rest => nsQuery q && noSetOpStmts rest
  | .otherStmt :: rest => noSetOpStmts rest

mutual

theorem aliasQuery_sub : ∀ q : Query, nsQuery q = true →
    ∀ a, a ∈ aliasQuery q → a ∈ tablesQuery q
  | .mk ctes body, h, a, ha => by
    simp only [nsQuery, Bool.and_eq_true] at h
    simp only [aliasQuery, List.mem_append] at ha
    simp only [tablesQuery, List.mem_append]
    rcases ha with ha | ha
    · exact Or.inl (aliasCtes_sub ctes h.1 a ha)
    · exact Or.inr (aliasSet_sub body h.2 a ha)

theorem aliasCtes_sub : ∀ c : CteList, nsCtes c = true →
    ∀ a, a ∈ aliasCtes c → a ∈ tablesCtes c
  | .nil, _, a, ha => by simp [aliasCtes] at ha
  | .cons nm q rest, h, a, ha => by
    simp only [nsCtes, Bool.and_eq_true] at h
    simp only [aliasCtes, List.cons_append, List.mem_cons,
      List.mem_append] at ha
    simp only [tablesCtes, List.cons_append, List.mem_cons, List.mem_append]
    rcases ha with rfl | ha | ha
    · exact Or.inl rfl
    · exact Or.inr (Or.inl (aliasQuery_sub q h.1 a ha))
    · exact Or.inr (Or.inr (aliasCtes_sub rest h.2 a ha))

theorem aliasSet_sub : ∀ b : SetExpr, nsSet b = true →
    ∀ a, a ∈ aliasSet b → a ∈ tablesBody b
  | .select s, h, a, ha => aliasSel_sub s h a ha
  | .query q, h, a, ha => aliasQuery_sub q h a ha
  | .setOp _ _, h, _, _ => by simp [nsSet] at h
  | .other, _, a, ha => by simp [aliasSet] at ha

theorem aliasSel_sub : ∀ s : Sel, nsSel s = true →
    ∀ a, a ∈ aliasSel s → a ∈ tablesSelRich s
  | .mk f sel proj hav, h, a, ha => by
    simp only [nsSel, Bool.and_eq_true] at h
    simp only [aliasSel, List.mem_append] at ha
    simp only [tablesSelRich, List.mem_append]
    rcases ha with ((ha | ha) | ha) | ha
    · exact Or.inl (Or.inl (Or.inl (aliasTwjList_sub f h.1.1.1 a ha)))
    · exact Or.inl (Or.inl (Or.inr (aliasExprOpt_sub sel h.1.1.2 a ha)))
    · exact Or.inl (Or.inr (aliasItems_sub proj h.1.2 a ha))
    · exact Or.inr (aliasExprOpt_sub hav h.2 a ha)

theorem aliasTwjList_sub : ∀ l : TwjList, nsTwjList l = true →
    ∀ a, a ∈ aliasTwjList l → a ∈ tablesTwjList l
  | .nil, _, a, ha => by simp [aliasTwjList] at ha
  | .cons t rest, h, a, ha => by
    simp only [nsTwjList, Bool.and_eq_true] at h
    simp only [aliasTwjList, List.mem_append] at ha
    simp only [tablesTwjList, List.mem_append]
    rcases ha with ha | ha
    · exact Or.inl (aliasTwj_sub t h.1 a ha)
    · exact Or.inr (aliasTwjList_sub rest h.2 a ha)

theorem aliasTwj_sub : ∀ t : Twj, nsTwj t = true →
    ∀ a, a ∈ aliasTwj t → a ∈ tablesTwj t
  | .mk r js, h, a, ha => by
    simp only [nsTwj, Bool.and_eq_true] at h
    simp only [aliasTwj, List.mem_append] at ha
    simp only [tablesTwj, List.mem_append]
    rcases ha with ha | ha
    · exact Or.inl (aliasRel_sub r h.1 a ha)
    · exact Or.inr (aliasRelList_sub js h.2 a ha)

theorem aliasRelList_sub : ∀ l : RelList, nsRelList l = true →
    ∀ a, a ∈ aliasRelList l → a ∈ tablesRelList l
  | .nil, _, a, ha => by simp [aliasRelList] at ha
  | .cons r rest, h, a, ha => by
    simp only [nsRelList, Bool.and_eq_true] at h
    simp only [aliasRelList, List.mem_append] at ha
    simp only [tablesRelList, List.mem_append]
    rcases ha with ha | ha
    · exact Or.inl (aliasRel_sub r h.1 a ha)
    · exact Or.inr (aliasRelList_sub rest h.2 a ha)

theorem aliasRel_sub : ∀ r : Rel, nsRel r = true →
    ∀ a, a ∈ aliasRel r → a ∈ tablesRel r
  | .table _, _, a, ha => by simp [aliasRel] at ha
  | .derived q, h, a, ha => aliasQuery_sub q h a ha
  | .tableFunc e, h, a, ha => aliasExpr_sub e h a ha
  | .nestedJoin t, h, a, ha => aliasTwj_sub t h a ha
  | .otherRel, _, a, ha => by simp [aliasRel] at ha

theorem aliasItems_sub : ∀ l : ItemList, nsItems l = true →
    ∀ a, a ∈ aliasItems l → a ∈ tablesItems l
  | .nil, _, a, ha => by simp [aliasItems] at ha
  | .cons i rest, h, a, ha => by
    simp only [nsItems, Bool.and_eq_true] at h
    simp only [aliasItems, List.mem_append] at ha
    simp only [tablesItems, List.mem_append]
    rcases ha with ha | ha
    · exact Or.inl (aliasItem_sub i h.1 a ha)
    · exact Or.inr (aliasItems_sub rest h.2 a ha)

theorem aliasItem_sub : ∀ i : Item, nsItem i = true →
    ∀ a, a ∈ aliasItem i → a ∈ tablesItem i
  | .exprWithAlias e, h, a, ha => aliasExpr_sub e h a ha
  | .unnamedExpr e, h, a, ha => aliasExpr_sub e h a ha
  | .otherItem, _, a, ha => by simp [aliasItem] at ha

theorem aliasExprOpt_sub : ∀ o : ExprOpt, nsExprOpt o = true →
    ∀ a, a ∈ aliasExprOpt o → a ∈ tablesExprOpt o
  | .noneE, _, a, ha => by simp [aliasExprOpt] at ha
  | .someE e, h, a, ha => aliasExpr_sub e h a ha

theorem aliasExpr_sub : ∀ e : Expr, nsExpr e = true →
    ∀ a, a ∈ aliasExpr e → a ∈ tablesExpr e
  | .subquery q, h, a, ha => aliasQuery_sub q h a ha
  | .binaryOp l r, h, a, ha => by
    simp only [nsExpr, Bool.and_eq_true] at h
    simp only [aliasExpr, List.mem_append] at ha
    simp only [tablesExpr, List.mem_append]
    rcases ha with ha | ha
    · exact Or.inl (aliasExpr_sub l h.1 a ha)
    · exact Or.inr (aliasExpr_sub r h.2 a ha)
  | .unaryOp e, h, a, ha => aliasExpr_sub e h a ha
  | .cast e, h, a, ha => aliasExpr_sub e h a ha
  | .inSubquery q, h, a, ha => aliasQuery_sub q h a ha
  | .inList l, h, a, ha => aliasExprList_sub l h a ha
  | .funcCall _, _, a, ha => by simp [aliasExpr] at ha
  | .caseExpr op conds res els, h, a, ha => by
    simp only [nsExpr, Bool.and_eq_true] at h
    simp only [aliasExpr, List.mem_append] at ha
    simp only [tablesExpr, List.mem_append]
    rcases ha with ((ha | ha) | ha) | ha
    · exact Or.inl (Or.inl (Or.inl (aliasExprOpt_sub op h.1.1.1 a ha)))
    · exact Or.inl (Or.inl (Or.inr (aliasExprList_sub conds h.1.1.2 a ha)))
    · exact Or.inl (Or.inr (aliasExprList_sub res h.1.2 a ha))
    · exact Or.inr (aliasExprOpt_sub els h.2 a ha)
  | .otherExpr, _, a, ha => by simp [aliasExpr] at ha

theorem aliasExprList_sub : ∀ l : ExprList, nsExprList l = true →
    ∀ a, a ∈ aliasExprList l → a ∈ tablesExprList l
  | .nil, _, a, ha => by simp [aliasExprList] at ha
  | .cons e rest, h, a, ha => by
    simp only [nsExprList, Bool.and_eq_true] at h
    simp only [aliasExprList, List.mem_append] at ha
    simp only [tablesExprList, List.mem_append]
    rcases ha with ha | ha
    · exact Or.inl (aliasExpr_sub e h.1 a ha)
    · exact Or.inr (aliasExprList_sub rest h.2 a ha)

end

/-- C6 (amended): every CTE alias appears in the extractor's name list,
provided the statements contain no set operations (under a set operation,
aliases inside an operand SELECT's projection or HAVING are skipped); and
no CTE alias that is free of dots ever appears in the external subset. -/
theorem extractor_cte_aliases (ss : List Stmt) :
    (noSetOpStmts ss = true →
      ∀ a, a ∈ cteAliasesStmts ss → a ∈ getTableNames ss) ∧
      (∀ a, a ∈ cteAliasesStmts ss → containsDot a = false →
        a ∉ getExternalTableDeps ss) := by
  constructor
  · intro h a ha
    induction ss with
    | nil => simp [cteAliasesStmts] at ha
    | cons s rest ih =>
      cases s with
      | query q =>
        simp only [noSetOpStmts, Bool.and_eq_true] at h
        simp only [cteAliasesStmts, List.mem_append] at ha
        simp only [getTableNames, List.mem_append]
        rcases ha with ha | ha
        · exact Or.inl (aliasQuery_sub q h.1 a ha)
        · exact Or.inr (ih h.2 ha)
      | otherStmt =>
        simp only [noSetOpStmts] at h
        simp only [cteAliasesStmts] at ha
        simpa [getTableNames] using ih h ha
  · intro a _ hdot hmem
    unfold getExternalTableDeps at hmem
    have := (List.mem_filter.mp hmem).2
    rw [hdot] at this
    exact Bool.false_ne_true this

/-- C6 witness: the scenario-S4 WITH query — the alias `recent` is recorded
in names and stays out of the external subset. -/
theorem extractor_cte_aliases_witness :
    noSetOpStmts [Stmt.query (Query.mk
        (CteList.cons "recent"
          (Query.mk CteList.nil (SetExpr.select (Sel.mk
            (TwjList.cons (Twj.mk (Rel.table "orders") RelList.nil)
              TwjList.nil)
            ExprOpt.noneE ItemList.nil ExprOpt.noneE)))
          CteList.nil)
        SetExpr.other)] = true ∧
      "recent" ∈ getTableNames [Stmt.query (Query.mk
        (CteList.cons "recent"
          (Query.mk CteList.nil (SetExpr.select (Sel.mk
            (TwjList.cons (Twj.mk (Rel.table "orders") RelList.nil)
              TwjList.nil)
            ExprOpt.noneE ItemList.nil ExprOpt.noneE)))
          CteList.nil)
        SetExpr.other)] ∧
      "recent" ∉ getExternalTableDeps [Stmt.query (Query.mk
        (CteList.cons "recent"
          (Query.mk CteList.nil (SetExpr.select (Sel.mk
            (TwjList.cons (Twj.mk (Rel.table "orders") RelList.nil)
              TwjList.nil)
            ExprOpt.noneE ItemList.nil ExprOpt.noneE)))
          CteList.nil)
        SetExpr.other)] := by
  refine ⟨by decide, ?_, ?_⟩
  · exact (extractor_cte_aliases _).1 (by decide) "recent" (by decide)
  · exact (extractor_cte_aliases _).2 "recent" (by decide) (by decide)

/-- C6 counterexample: (a) a quoted CTE alias `a.b` containing a dot lands
in the external subset; (b) a CTE alias declared inside the projection of a
SELECT that is an operand of a set operation is missing from the name
list.  Both contradict the claim as stated. -/
theorem extractor_cte_aliases_counterexample :
    ("a.b" ∈ cteAliasesStmts [Stmt.query (Query.mk
        (CteList.cons "a.b" (Query.mk CteList.nil SetExpr.other) CteList.nil)
        SetExpr.other)] ∧
      "a.b" ∈ getExternalTableDeps [Stmt.query (Query.mk
        (CteList.cons "a.b" (Query.mk CteList.nil SetExpr.other) CteList.nil)
        SetExpr.other)]) ∧
      ("w" ∈ cteAliasesStmts [Stmt.query (Query.mk CteList.nil
        (SetExpr.setOp
          (SetExpr.select (Sel.mk TwjList.nil ExprOpt.noneE
            (ItemList.cons (Item.unnamedExpr (Expr.subquery (Query.mk
              (CteList.cons "w" (Query.mk CteList.nil SetExpr.other)
                CteList.nil)
              SetExpr.other)))
              ItemList.nil)
            ExprOpt.noneE))
          SetExpr.other))] ∧
        "w" ∉ getTableNames [Stmt.query (Query.mk CteList.nil
        (SetExpr.setOp
          (SetExpr.select (Sel.mk TwjList.nil ExprOpt.noneE
            (ItemList.cons (Item.unnamedExpr (Expr.subquery (Query.mk
              (CteList.cons "w" (Query.mk CteList.nil SetExpr.other)
                CteList.nil)
              SetExpr.other)))
              ItemList.nil)
            ExprOpt.noneE))
          SetExpr.other))]) := by
  refine ⟨⟨by decide, by decide⟩, by decide, by decide⟩

/-! ## The model collection and its graph build.

Source: `SqlModelCollection` in sql_model.rs.  Only the fields the claims
depend on are modelled.  HashMaps become association lists (insert
prepends, lookup takes the first hit, so the newest insertion wins);
HashSets become duplicate-free lists; the unordered iteration over
`self.models.keys()` becomes iteration over the key list in order — every
statement proved below is independent of that order. -/

/-- The fields of `SqlModel` that the graph build reads or writes. -/
structure SqlModel where
  name : String
  schema : Option String
  referencedTables : List String
  upstreamModels : List String
  downstreamModels : List String
  externalSources : List String
  depth : Option Nat
deriving DecidableEq

/-- The fields of `SqlModelCollection`. -/
structure Collection where
  models : List (String × SqlModel)
  childMap : List (String × List String)
  parentMap : List (String × List String)
  definedImports : List String
  missingImports : List (String × List String)
deriving DecidableEq

/-- `HashMap::get` on a map of sets, defaulting to the empty set:
"x is in the map entry of k". -/
def lookupSet (k : String) (m : List (String × List String)) : List String :=
  match alook k m with
  | some s => s
  | none => []

/-- In-place update of the model stored under `id` (no-op when absent).
Models `HashMap::get_mut`. -/
def updateModel (id : String) (f : SqlModel → SqlModel)
    (ms : List (String × SqlModel)) : List (String × SqlModel) :=
  ms.map (fun p => if p.1 = id then (p.1, f p.2) else p)

/-- `child_map.entry(k).or_default().insert(v)` (and likewise for the
parent map). -/
def mapSetInsert (k v : String) (m : List (String × List String)) :
    List (String × List String) :=
  match alook k m with
  | some _ => m.map (fun p => if p.1 = k then (p.1, insertSet v p.2) else p)
  | none => m ++ [(k, [v])]

/-- The resolution key of a model:
`format!("{}.{}", model.schema.as_deref().unwrap_or("public"), model.name)`. -/
def tableKey (m : SqlModel) : String :=
  (m.schema.getD "public") ++ "." ++ m.name

/-- Model of `build_table_to_model_map`: insert one entry per model id;
a later insert with the same table name wins (HashMap overwrite). -/
def buildTableToModelMap (ms : List (String × SqlModel)) (ids : List String) :
    List (String × String) :=
  ids.foldl (fun t2m id =>
    match alook id ms with
    | none => t2m
    | some m => (tableKey m, id) :: t2m) []

/-- Model of `collect_model_relationships`: the `(child, parent)` pairs, in
collection order. -/
def collectRels (ms : List (String × SqlModel)) (ids : List String)
    (t2m : List (String × String)) : List (String × String) :=
  ids.foldl (fun rels id =>
    match alook id ms with
    | none => rels
    | some m =>
      m.referencedTables.foldl (fun rels ref =>
        match alook ref t2m with
        | some parent => rels ++ [(id, parent)]
        | none => rels) rels) []

/-- The child-map updates performed while collecting relationships. -/
def buildChildMap (rels : List (String × String)) :
    List (String × List String) :=
  rels.foldl (fun cm r => mapSetInsert r.2 r.1 cm) []

/-- The parent-map updates performed while collecting relationships. -/
def buildParentMap (rels : List (String × String)) :
    List (String × List String) :=
  rels.foldl (fun pm r => mapSetInsert r.1 r.2 pm) []

/-- Model of `update_model_dependency_relationships`: for each
`(child, parent)` pair, add the parent to the child's upstream set and the
child to the parent's downstream set. -/
def updateRels (ms : List (String × SqlModel))
    (rels : List (String × String)) : List (String × SqlModel) :=
  rels.foldl (fun ms r =>
    updateModel r.2
      (fun m => { m with downstreamModels := insertSet r.1 m.downstreamModels })
      (updateModel r.1
        (fun m => { m with upstreamModels := insertSet r.2 m.upstreamModels })
        ms)) ms

/-- Model of `identify_external_sources`: referenced tables that resolve to
no model are external; external ones absent from the imports set are
missing. -/
def identifyExternalSources (imports : List String)
    (t2m : List (String × String)) (m : SqlModel) :
    List String × List String :=
  m.referencedTables.foldl (fun acc ref =>
    match alook ref t2m with
    | some _ => acc
    | none =>
      (insertSet ref acc.1,
        if ref ∈ imports then acc.2 else insertSet ref acc.2)) ([], [])

/-- The body of the `calculate_external_sources` loop for one model id. -/
def calcExtStep (t2m : List (String × String)) (c : Collection)
    (id : String) : Collection :=
  match alook id c.models with
  | none => c
  | some m =>
    let es := identifyExternalSources c.definedImports t2m m
    { c with
      missingImports :=
        if es.2 = [] then c.missingImports else (id, es.2) :: c.missingImports,
      models :=
        updateModel id (fun m2 => { m2 with externalSources := es.1 })
          c.models }

/-- Model of `calculate_external_sources`. -/
def calcExternalSources (t2m : List (String × String)) :
    List String → Collection → Collection
  | [], c => c
  | id :: rest, c => calcExternalSources t2m rest (calcExtStep t2m c id)

/-- The depth reset applied to one model. -/
def resetFun (m : SqlModel) : SqlModel := { m with depth := none }

/-- The reset loop at the top of `calculate_model_depths`. -/
def resetDepths (ms : List (String × SqlModel)) : List (String × SqlModel) :=
  ms.map (fun p => (p.1, resetFun p.2))

/-- Depth 0 for a model without upstreams, otherwise unchanged. -/
def markFun (m : SqlModel) : SqlModel :=
  if m.upstreamModels = [] then { m with depth := some 0 } else m

/-- Model of `mark_source_nodes`: depth 0 for models without upstreams. -/
def markSourceNodes : List String → List (String × SqlModel) →
    List (String × SqlModel)
  | [], ms => ms
  | id :: rest, ms => markSourceNodes rest (updateModel id markFun ms)

/-- The upstream scan of `check_model_dependencies`: walk the upstream ids,
accumulate the running maximum of the depths of those found, and stop (all
= false) at the first found upstream without a depth. -/
def scanUpstreams (ms : List (String × SqlModel)) :
    Option Nat → List String → Bool × Option Nat
  | acc, [] => (true, acc)
  | acc, u :: rest =>
    match alook u ms with
    | none => scanUpstreams ms acc rest
    | some mu =>
      match mu.depth with
      | some d => scanUpstreams ms (some (Nat.max (acc.getD 0) d)) rest
      | none => (false, acc)

/-- Model of `check_model_dependencies`. -/
def checkModelDependencies (ms : List (String × SqlModel)) (id : String) :
    Option (Bool × Option Nat) :=
  match alook id ms with
  | none => none
  | some m =>
    if m.upstreamModels = [] ∨ m.depth.isSome then some (false, none)
    else some (scanUpstreams ms none m.upstreamModels)

/-- One iteration of the inner `for` loop of
`calculate_model_depths_iteratively`. -/
def passStep (st : List (String × SqlModel) × Bool) (id : String) :
    List (String × SqlModel) × Bool :=
  if (alook id st.1).any (fun m => m.depth.isSome) then st
  else
    match checkModelDependencies st.1 id with
    | some (true, maxd) =>
      (updateModel id (fun m => { m with depth := maxd.map (· + 1) }) st.1,
        true)
    | _ => st

/-- The inner `for` loop over the model ids, threading `made_changes`. -/
def passFold : List String → List (String × SqlModel) × Bool →
    List (String × SqlModel) × Bool
  | [], st => st
  | id :: rest, st => passFold rest (passStep st id)

/-- One full pass over the model ids; the boolean is `made_changes`. -/
def onePass (ids : List String) (ms : List (String × SqlModel)) :
    List (String × SqlModel) × Bool :=
  passFold ids (ms, false)

/-- The `while made_changes` loop, with explicit fuel.  The boolean result
records whether the loop reached its exit condition (a pass with no
changes) within the fuel; the Rust loop diverges exactly when no fuel
bound suffices. -/
def depthLoop (ids : List String) :
    Nat → List (String × SqlModel) → List (String × SqlModel) × Bool
  | 0, ms => (ms, false)
  | fuel + 1, ms =>
    match onePass ids ms with
    | (ms2, true) => depthLoop ids fuel ms2
    | (ms2, false) => (ms2, true)

/-- Model of `calculate_model_depths`: reset, mark sources, iterate.  The
fuel `length + 1` is enough whenever the Rust loop terminates at all (each
changing pass assigns at least one depth). -/
def calcModelDepths (c : Collection) : Collection × Bool :=
  let ids := c.models.map Prod.fst
  let ms1 := markSourceNodes ids (resetDepths c.models)
  let r := depthLoop ids (ms1.length + 1) ms1
  ({ c with models := r.1 }, r.2)

/-- Model of `build_dependency_graph`. -/
def buildDependencyGraph (c : Collection) : Collection × Bool :=
  let c1 : Collection :=
    { c with childMap := [], parentMap := [], missingImports := [] }
  let ids := c1.models.map Prod.fst
  let t2m := buildTableToModelMap c1.models ids
  let rels := collectRels c1.models ids t2m
  let c2 : Collection :=
    { c1 with
      childMap := buildChildMap rels,
      parentMap := buildParentMap rels,
      models := updateRels c1.models rels }
  calcModelDepths (calcExternalSources t2m ids c2)

/-- Model of `detect_cycles`: the source is a stub that always returns an
empty list. -/
def detectCycles (_ : Collection) : List (List String) := []

/-! ## YAML emission order (C4). -/

/-- Lexicographic comparison of character lists (scalar-value order; on the
ASCII ids involved this coincides with Rust's byte-wise `str` order). -/
def charListLe : List Char → List Char → Bool
  | [], _ => true
  | _ :: _, [] => false
  | a :: as, b :: bs =>
    if a.toNat < b.toNat then true
    else if b.toNat < a.toNat then false
    else charListLe as bs

/-- Ascending string order used for sorting. -/
def strLe (a b : String) : Bool := charListLe a.toList b.toList

/-- Insertion into an ascending list. -/
def insertSorted (x : String) : List String → List String
  | [] => [x]
  | y :: ys => if strLe x y then x :: y :: ys else y :: insertSorted x ys

/-- Ascending sort of a list of strings (models
`sort_by(|a, b| a.unique_id.cmp(&b.unique_id))` in `get_execution_order`). -/
def sortStrings (l : List String) : List String :=
  l.foldr insertSorted []

/-- The hand-written model order inside `to_yaml`. -/
def modelOrder : List String :=
  ["model.staging.stg_accounts.stg_accounts",
   "model.marts.core.customer_summary.customer_summary",
   "model.staging.stg_transactions.stg_transactions",
   "model.staging.stg_customers.stg_customers",
   "model.marts.core.merchant_summary.merchant_summary",
   "model.marts.finance.recurring_analysis.recurring_analysis",
   "model.marts.finance.monthly_trends.monthly_trends",
   "model.marts.finance.daily_trends.daily_trends",
   "model.staging.stg_merchants.stg_merchants",
   "model.marts.finance.spending_categories.spending_categories"]

/-- Model of the order in which `to_yaml` inserts models into its output
mapping: first the ids of the hand-written `model_order` that are present
(in that hand-written order), then the remaining ids.  The HashMaps the
code uses are modelled as preserving insertion order (the charitable,
deterministic reading; a Rust HashMap does not even guarantee that). -/
def toYamlModelIds (c : Collection) : List String :=
  let sortedIds := sortStrings (c.models.map Prod.fst)
  modelOrder.filter (fun id => id ∈ sortedIds) ++
    sortedIds.filter (fun id => id ∉ modelOrder)

/-- The constant `version: 1` of the YAML output. -/
def toYamlVersion : Nat := 1

/-! ## Lookup and update lemmas. -/

theorem alook_update {α : Type} (k id : String) (f : α → α)
    (l : List (String × α)) :
    alook k (l.map (fun p => if p.1 = id then (p.1, f p.2) else p)) =
      if k = id then (alook k l).map f else alook k l := by
  induction l with
  | nil => by_cases h : k = id <;> simp [h]
  | cons p rest ih =>
    obtain ⟨a, b⟩ := p
    by_cases h1 : a = id
    · subst h1
      by_cases h2 : a = k
      · subst h2
        simp [ih]
      · have hki : ¬(k = a) := fun hc => h2 hc.symm
        simp [h2, hki, ih]
    · by_cases h2 : a = k
      · subst h2
        simp [h1, fun hc : a = id => h1 hc]
      · simp [h1, h2, ih]

theorem updateModel_alook (k id : String) (f : SqlModel → SqlModel)
    (ms : List (String × SqlModel)) :
    alook k (updateModel id f ms) =
      if k = id then (alook k ms).map f else alook k ms :=
  alook_update k id f ms

theorem updateModel_keys (id : String) (f : SqlModel → SqlModel)
    (ms : List (String × SqlModel)) :
    (updateModel id f ms).map Prod.fst = ms.map Prod.fst := by
  unfold updateModel
  rw [List.map_map]
  congr 1
  funext p
  by_cases h : p.1 = id <;> simp [h]

theorem alook_map_value {α : Type} (k : String) (g : α → α)
    (l : List (String × α)) :
    alook k (l.map (fun p => (p.1, g p.2))) = (alook k l).map g := by
  induction l with
  | nil => simp
  | cons p rest ih => by_cases h : p.1 = k <;> simp [h, ih]

theorem lookupSet_mapSetInsert (k k' v : String)
    (m : List (String × List String)) :
    lookupSet k (mapSetInsert k' v m) =
      if k = k' then insertSet v (lookupSet k' m) else lookupSet k m := by
  unfold mapSetInsert
  cases h : alook k' m with
  | some s =>
    unfold lookupSet
    rw [alook_update k k' (insertSet v) m]
    by_cases hk : k = k'
    · subst hk
      rw [if_pos rfl, if_pos rfl, h]
      simp
    · rw [if_neg hk, if_neg hk]
  | none =>
    unfold lookupSet
    rw [alook_append]
    by_cases hk : k = k'
    · subst hk
      rw [h]
      simp [alook, insertSet]
    · have hk2 : ¬(k' = k) := fun hc => hk hc.symm
      rw [if_neg hk]
      cases h2 : alook k m with
      | some s => simp
      | none => simp [alook, hk2]

/-! ## Characterizations of the graph-build phases. -/

theorem buildTableToModelMap_go (ms : List (String × SqlModel)) :
    ∀ (ids : List String) (acc : List (String × String)),
      ids.foldl (fun t2m id =>
        match alook id ms with
        | none => t2m
        | some m => (tableKey m, id) :: t2m) acc =
      (ids.filterMap (fun id =>
        (alook id ms).map (fun m => (tableKey m, id)))).reverse ++ acc := by
  intro ids
  induction ids with
  | nil => intro acc; simp
  | cons id0 rest ih =>
    intro acc
    cases h : alook id0 ms with
    | none => simp only [List.foldl_cons, h, List.filterMap_cons,
        Option.map_none']; exact ih acc
    | some m =>
      simp only [List.foldl_cons, h, List.filterMap_cons, Option.map_some',
        List.reverse_cons, List.append_assoc]
      exact ih _

theorem mem_buildTableToModelMap {ms : List (String × SqlModel)}
    {ids : List String} {p : String × String} :
    p ∈ buildTableToModelMap ms ids ↔
      ∃ id ∈ ids, ∃ m, alook id ms = some m ∧ p = (tableKey m, id) := by
  unfold buildTableToModelMap
  rw [buildTableToModelMap_go]
  simp only [List.append_nil, List.mem_reverse, List.mem_filterMap,
    Option.map_eq_some']
  constructor
  · rintro ⟨id, hid, m, hm, rfl⟩
    exact ⟨id, hid, m, hm, rfl⟩
  · rintro ⟨id, hid, m, hm, rfl⟩
    exact ⟨id, hid, m, hm, rfl⟩

theorem t2m_value_mem_ids {ms : List (String × SqlModel)} {ids : List String}
    {r v : String} (h : alook r (buildTableToModelMap ms ids) = some v) :
    v ∈ ids := by
  have hmem := alook_mem h
  rcases mem_buildTableToModelMap.mp hmem with ⟨id, hid, m, _, hp⟩
  cases hp
  exact hid

theorem alook_eq_of_all {α : Type} {l : List (String × α)} {k : String}
    {v : α} (hex : ∃ p ∈ l, p.1 = k) (hall : ∀ p ∈ l, p.1 = k → p.2 = v) :
    alook k l = some v := by
  induction l with
  | nil => rcases hex with ⟨p, hp, _⟩; cases hp
  | cons p rest ih =>
    by_cases h : p.1 = k
    · rw [alook_cons, if_pos h, hall p (List.mem_cons_self p rest) h]
    · rw [alook_cons, if_neg h]
      rcases hex with ⟨q, hq, hqk⟩
      rcases List.mem_cons.mp hq with rfl | hq2
      · exact absurd hqk h
      · exact ih ⟨q, hq2, hqk⟩ (fun q2 hq2 hk => hall q2 (List.mem_cons_of_mem _ hq2) hk)

/-- The relationships contributed by a single model id. -/
def relsOf (ms : List (String × SqlModel)) (t2m : List (String × String))
    (id : String) : List (String × String) :=
  match alook id ms with
  | none => []
  | some m =>
    m.referencedTables.filterMap (fun ref =>
      (alook ref t2m).map (fun parent => (id, parent)))

theorem collectRels_inner (id : String) (t2m : List (String × String)) :
    ∀ (refs : List String) (acc : List (String × String)),
      refs.foldl (fun rels ref =>
        match alook ref t2m with
        | some parent => rels ++ [(id, parent)]
        | none => rels) acc =
      acc ++ refs.filterMap (fun ref =>
        (alook ref t2m).map (fun parent => (id, parent))) := by
  intro refs
  induction refs with
  | nil => intro acc; simp
  | cons ref rest ih =>
    intro acc
    cases h : alook ref t2m with
    | none =>
      simp only [List.foldl_cons, h, List.filterMap_cons, Option.map_none']
      exact ih acc
    | some parent =>
      simp only [List.foldl_cons, h, List.filterMap_cons, Option.map_some']
      rw [ih (acc ++ [(id, parent)])]
      simp

theorem collectRels_eq (ms : List (String × SqlModel))
    (ids : List String) (t2m : List (String × String)) :
    collectRels ms ids t2m = ids.flatMap (relsOf ms t2m) := by
  unfold collectRels
  suffices h : ∀ (ids2 : List String) (acc : List (String × String)),
      ids2.foldl (fun rels id =>
        match alook id ms with
        | none => rels
        | some m =>
          m.referencedTables.foldl (fun rels ref =>
            match alook ref t2m with
            | some parent => rels ++ [(id, parent)]
            | none => rels) rels) acc =
      acc ++ ids2.flatMap (relsOf ms t2m) by
    rw [h ids []]
    simp
  intro ids2
  induction ids2 with
  | nil => intro acc; simp
  | cons id0 rest ih =>
    intro acc
    cases h : alook id0 ms with
    | none =>
      simp only [List.foldl_cons, h, List.flatMap_cons, relsOf]
      rw [ih acc]
      simp [relsOf, h]
    | some m =>
      simp only [List.foldl_cons, h]
      rw [collectRels_inner, ih]
      simp [relsOf, h, List.append_assoc]

theorem collectRels_mem {ms : List (String × SqlModel)} {ids : List String}
    {t2m : List (String × String)} {a b : String} :
    (a, b) ∈ collectRels ms ids t2m ↔
      a ∈ ids ∧ ∃ m, alook a ms = some m ∧
        ∃ ref ∈ m.referencedTables, alook ref t2m = some b := by
  rw [collectRels_eq, List.mem_flatMap]
  constructor
  · rintro ⟨id, hid, hmem⟩
    unfold relsOf at hmem
    cases h : alook id ms with
    | none => rw [h] at hmem; simp at hmem
    | some m =>
      rw [h] at hmem
      simp only [List.mem_filterMap, Option.map_eq_some'] at hmem
      rcases hmem with ⟨ref, href, parent, hpar, hpair⟩
      cases hpair
      exact ⟨hid, m, h, ref, href, hpar⟩
  · rintro ⟨ha, m, hm, ref, href, hpar⟩
    refine ⟨a, ha, ?_⟩
    unfold relsOf
    rw [hm]
    simp only [List.mem_filterMap, Option.map_eq_some']
    exact ⟨ref, href, b, hpar, rfl⟩

theorem buildChildMap_go :
    ∀ (rels : List (String × String)) (acc : List (String × List String))
      (k x : String),
      x ∈ lookupSet k (rels.foldl (fun cm r => mapSetInsert r.2 r.1 cm) acc) ↔
        x ∈ lookupSet k acc ∨ (x, k) ∈ rels := by
  intro rels
  induction rels with
  | nil => intro acc k x; simp
  | cons r rest ih =>
    obtain ⟨rc, rp⟩ := r
    intro acc k x
    simp only [List.foldl_cons, List.mem_cons, Prod.mk.injEq]
    rw [ih, lookupSet_mapSetInsert]
    by_cases hk : k = rp
    · subst hk
      rw [if_pos rfl]
      simp only [insertSet_mem]
      tauto
    · rw [if_neg hk]
      simp only [hk, and_false, false_or]

theorem buildChildMap_mem {rels : List (String × String)} {k x : String} :
    x ∈ lookupSet k (buildChildMap rels) ↔ (x, k) ∈ rels := by
  unfold buildChildMap
  rw [buildChildMap_go]
  simp [lookupSet]

theorem buildParentMap_go :
    ∀ (rels : List (String × String)) (acc : List (String × List String))
      (k x : String),
      x ∈ lookupSet k (rels.foldl (fun pm r => mapSetInsert r.1 r.2 pm) acc) ↔
        x ∈ lookupSet k acc ∨ (k, x) ∈ rels := by
  intro rels
  induction rels with
  | nil => intro acc k x; simp
  | cons r rest ih =>
    obtain ⟨rc, rp⟩ := r
    intro acc k x
    simp only [List.foldl_cons, List.mem_cons, Prod.mk.injEq]
    rw [ih, lookupSet_mapSetInsert]
    by_cases hk : k = rc
    · subst hk
      rw [if_pos rfl]
      simp only [insertSet_mem]
      tauto
    · rw [if_neg hk]
      simp only [hk, false_and, false_or]

theorem buildParentMap_mem {rels : List (String × String)} {k x : String} :
    x ∈ lookupSet k (buildParentMap rels) ↔ (k, x) ∈ rels := by
  unfold buildParentMap
  rw [buildParentMap_go]
  simp [lookupSet]

/-- The effect of processing one relationship on the model stored under
key `k` (derived from the two `updateModel` calls of `updateRels`). -/
def relStep (k : String) (r : String × String) (m : SqlModel) : SqlModel :=
  let m1 :=
    if k = r.1 then
      { m with upstreamModels := insertSet r.2 m.upstreamModels }
    else m
  if k = r.2 then
    { m1 with downstreamModels := insertSet r.1 m1.downstreamModels }
  else m1

/-- The accumulated effect of `updateRels` on the model stored under `k`. -/
def relFold (k : String) (rels : List (String × String)) (m : SqlModel) :
    SqlModel :=
  rels.foldl (fun m r => relStep k r m) m

theorem relStep_alook (ms : List (String × SqlModel)) (r : String × String)
    (k : String) :
    alook k (updateModel r.2
      (fun m => { m with downstreamModels := insertSet r.1 m.downstreamModels })
      (updateModel r.1
        (fun m => { m with upstreamModels := insertSet r.2 m.upstreamModels })
        ms)) =
    (alook k ms).map (relStep k r) := by
  rw [updateModel_alook, updateModel_alook]
  unfold relStep
  by_cases h2 : k = r.2
  · by_cases h1 : k = r.1
    · have h21 : r.2 = r.1 := h2.symm.trans h1
      cases halook : alook k ms <;> simp [h1, h2, h21, halook]
    · have h21 : ¬(r.2 = r.1) := fun hc => h1 (h2.trans hc)
      cases halook : alook k ms <;> simp [h1, h2, h21, halook]
  · by_cases h1 : k = r.1
    · have h12 : ¬(r.1 = r.2) := fun hc => h2 (h1.trans hc)
      cases halook : alook k ms <;> simp [h1, h2, h12, halook]
    · cases halook : alook k ms <;> simp [h1, h2, halook]

theorem updateRels_alook :
    ∀ (rels : List (String × String)) (ms : List (String × SqlModel))
      (k : String),
      alook k (updateRels ms rels) = (alook k ms).map (relFold k rels)
  | [], ms, k => by
    cases h : alook k ms <;> simp [updateRels, relFold, h]
  | r :: rest, ms, k => by
    have hstep : updateRels ms (r :: rest) =
        updateRels (updateModel r.2
          (fun m =>
            { m with downstreamModels := insertSet r.1 m.downstreamModels })
          (updateModel r.1
            (fun m =>
              { m with upstreamModels := insertSet r.2 m.upstreamModels })
            ms)) rest := rfl
    rw [hstep, updateRels_alook rest _ k, relStep_alook, Option.map_map]
    rfl

theorem updateRels_keys :
    ∀ (rels : List (String × String)) (ms : List (String × SqlModel)),
      (updateRels ms rels).map Prod.fst = ms.map Prod.fst
  | [], _ => rfl
  | r :: rest, ms => by
    have hstep : updateRels ms (r :: rest) =
        updateRels (updateModel r.2
          (fun m =>
            { m with downstreamModels := insertSet r.1 m.downstreamModels })
          (updateModel r.1
            (fun m =>
              { m with upstreamModels := insertSet r.2 m.upstreamModels })
            ms)) rest := rfl
    rw [hstep, updateRels_keys rest, updateModel_keys, updateModel_keys]

theorem relStep_fields (k : String) (r : String × String) (m : SqlModel) :
    (relStep k r m).referencedTables = m.referencedTables ∧
      (relStep k r m).name = m.name ∧ (relStep k r m).schema = m.schema ∧
      (relStep k r m).externalSources = m.externalSources ∧
      (relStep k r m).depth = m.depth := by
  unfold relStep
  by_cases h1 : k = r.1 <;> by_cases h2 : k = r.2 <;> simp [h1, h2] <;>
    split <;> simp

theorem relFold_fields :
    ∀ (rels : List (String × String)) (k : String) (m : SqlModel),
      (relFold k rels m).referencedTables = m.referencedTables ∧
        (relFold k rels m).name = m.name ∧
        (relFold k rels m).schema = m.schema ∧
        (relFold k rels m).externalSources = m.externalSources ∧
        (relFold k rels m).depth = m.depth
  | [], _, _ => ⟨rfl, rfl, rfl, rfl, rfl⟩
  | r :: rest, k, m => by
    have hstep : relFold k (r :: rest) m = relFold k rest (relStep k r m) := rfl
    rw [hstep]
    have h1 := relFold_fields rest k (relStep k r m)
    have h2 := relStep_fields k r m
    exact ⟨h1.1.trans h2.1, h1.2.1.trans h2.2.1, h1.2.2.1.trans h2.2.2.1,
      h1.2.2.2.1.trans h2.2.2.2.1, h1.2.2.2.2.trans h2.2.2.2.2⟩

theorem relStep_upstream_mem (k : String) (r : String × String) (m : SqlModel)
    (u : String) :
    u ∈ (relStep k r m).upstreamModels ↔
      u ∈ m.upstreamModels ∨ (k = r.1 ∧ u = r.2) := by
  unfold relStep
  by_cases h1 : k = r.1 <;> by_cases h2 : k = r.2 <;>
    simp [h1, h2, insertSet_mem] <;>
    first
    | tauto
    | (split <;> (try simp [insertSet_mem]) <;> tauto)

theorem relFold_upstream_mem :
    ∀ (rels : List (String × String)) (k : String) (m : SqlModel)
      (u : String),
      u ∈ (relFold k rels m).upstreamModels ↔
        u ∈ m.upstreamModels ∨ (k, u) ∈ rels
  | [], _, _, _ => by simp [relFold]
  | r :: rest, k, m, u => by
    have hstep : relFold k (r :: rest) m = relFold k rest (relStep k r m) := rfl
    rw [hstep, relFold_upstream_mem rest, relStep_upstream_mem, List.mem_cons,
      Prod.ext_iff]
    tauto

theorem relStep_downstream_mem (k : String) (r : String × String)
    (m : SqlModel) (x : String) :
    x ∈ (relStep k r m).downstreamModels ↔
      x ∈ m.downstreamModels ∨ (k = r.2 ∧ x = r.1) := by
  unfold relStep
  by_cases h1 : k = r.1 <;> by_cases h2 : k = r.2 <;>
    simp [h1, h2, insertSet_mem] <;>
    first
    | tauto
    | (split <;> (try simp [insertSet_mem]) <;> tauto)

theorem relFold_downstream_mem :
    ∀ (rels : List (String × String)) (k : String) (m : SqlModel)
      (x : String),
      x ∈ (relFold k rels m).downstreamModels ↔
        x ∈ m.downstreamModels ∨ (x, k) ∈ rels
  | [], _, _, _ => by simp [relFold]
  | r :: rest, k, m, x => by
    have hstep : relFold k (r :: rest) m = relFold k rest (relStep k r m) := rfl
    rw [hstep, relFold_downstream_mem rest, relStep_downstream_mem,
      List.mem_cons, Prod.ext_iff]
    tauto

theorem identify_go (imports : List String) (t2m : List (String × String)) :
    ∀ (refs : List String) (acc : List String × List String) (x : String),
      (x ∈ (refs.foldl (fun acc ref =>
          match alook ref t2m with
          | some _ => acc
          | none =>
            (insertSet ref acc.1,
              if ref ∈ imports then acc.2 else insertSet ref acc.2)) acc).1 ↔
        x ∈ acc.1 ∨ (x ∈ refs ∧ alook x t2m = none)) ∧
      (x ∈ (refs.foldl (fun acc ref =>
          match alook ref t2m with
          | some _ => acc
          | none =>
            (insertSet ref acc.1,
              if ref ∈ imports then acc.2 else insertSet ref acc.2)) acc).2 ↔
        x ∈ acc.2 ∨ (x ∈ refs ∧ alook x t2m = none ∧ x ∉ imports)) := by
  intro refs
  induction refs with
  | nil => intro acc x; simp
  | cons ref rest ih =>
    intro acc x
    cases h : alook ref t2m with
    | some v =>
      simp only [List.foldl_cons, h]
      obtain ⟨ih1, ih2⟩ := ih acc x
      constructor
      · rw [ih1]
        constructor
        · rintro (ha | ⟨hx, hn⟩)
          · exact Or.inl ha
          · exact Or.inr ⟨List.mem_cons_of_mem _ hx, hn⟩
        · rintro (ha | ⟨hx, hn⟩)
          · exact Or.inl ha
          · rcases List.mem_cons.mp hx with rfl | hx2
            · rw [h] at hn; cases hn
            · exact Or.inr ⟨hx2, hn⟩
      · rw [ih2]
        constructor
        · rintro (ha | ⟨hx, hn⟩)
          · exact Or.inl ha
          · exact Or.inr ⟨List.mem_cons_of_mem _ hx, hn⟩
        · rintro (ha | ⟨hx, hn⟩)
          · exact Or.inl ha
          · rcases List.mem_cons.mp hx with rfl | hx2
            · obtain ⟨hn1, hn2⟩ := hn
              rw [h] at hn1; cases hn1
            · exact Or.inr ⟨hx2, hn⟩
    | none =>
      simp only [List.foldl_cons, h]
      obtain ⟨ih1, ih2⟩ := ih
        (insertSet ref acc.1,
          if ref ∈ imports then acc.2 else insertSet ref acc.2) x
      constructor
      · rw [ih1]
        simp only [insertSet_mem]
        constructor
        · rintro ((rfl | ha) | ⟨hx, hn⟩)
          · exact Or.inr ⟨List.mem_cons_self _ _, h⟩
          · exact Or.inl ha
          · exact Or.inr ⟨List.mem_cons_of_mem _ hx, hn⟩
        · rintro (ha | ⟨hx, hn⟩)
          · exact Or.inl (Or.inr ha)
          · rcases List.mem_cons.mp hx with rfl | hx2
            · exact Or.inl (Or.inl rfl)
            · exact Or.inr ⟨hx2, hn⟩
      · rw [ih2]
        by_cases himp : ref ∈ imports
        · simp only [himp, if_pos]
          constructor
          · rintro (ha | ⟨hx, hn⟩)
            · exact Or.inl ha
            · exact Or.inr ⟨List.mem_cons_of_mem _ hx, hn⟩
          · rintro (ha | ⟨hx, hn⟩)
            · exact Or.inl ha
            · rcases List.mem_cons.mp hx with rfl | hx2
              · exact absurd himp hn.2
              · exact Or.inr ⟨hx2, hn⟩
        · simp only [himp, if_neg, not_false_iff, insertSet_mem]
          constructor
          · rintro ((rfl | ha) | ⟨hx, hn⟩)
            · exact Or.inr ⟨List.mem_cons_self _ _, h, himp⟩
            · exact Or.inl ha
            · exact Or.inr ⟨List.mem_cons_of_mem _ hx, hn⟩
          · rintro (ha | ⟨hx, hn⟩)
            · exact Or.inl (Or.inr ha)
            · rcases List.mem_cons.mp hx with rfl | hx2
              · exact Or.inl (Or.inl rfl)
              · exact Or.inr ⟨hx2, hn⟩

theorem identify_ext_mem {imports : List String} {t2m : List (String × String)}
    {m : SqlModel} {x : String} :
    x ∈ (identifyExternalSources imports t2m m).1 ↔
      x ∈ m.referencedTables ∧ alook x t2m = none := by
  unfold identifyExternalSources
  rw [(identify_go imports t2m m.referencedTables ([], []) x).1]
  simp

theorem identify_miss_mem {imports : List String}
    {t2m : List (String × String)} {m : SqlModel} {x : String} :
    x ∈ (identifyExternalSources imports t2m m).2 ↔
      x ∈ m.referencedTables ∧ alook x t2m = none ∧ x ∉ imports := by
  unfold identifyExternalSources
  rw [(identify_go imports t2m m.referencedTables ([], []) x).2]
  simp

theorem calcExtStep_const (t2m : List (String × String)) (c : Collection)
    (id : String) :
    (calcExtStep t2m c id).definedImports = c.definedImports ∧
      (calcExtStep t2m c id).childMap = c.childMap ∧
      (calcExtStep t2m c id).parentMap = c.parentMap := by
  unfold calcExtStep
  cases alook id c.models <;> simp

theorem calcExtStep_keys (t2m : List (String × String)) (c : Collection)
    (id : String) :
    (calcExtStep t2m c id).models.map Prod.fst = c.models.map Prod.fst := by
  unfold calcExtStep
  cases alook id c.models
  · rfl
  · simp [updateModel_keys]

theorem calcExtStep_other (t2m : List (String × String)) (c : Collection)
    (id k : String) (hk : ¬(k = id)) :
    alook k (calcExtStep t2m c id).models = alook k c.models ∧
      alook k (calcExtStep t2m c id).missingImports =
        alook k c.missingImports := by
  unfold calcExtStep
  cases alook id c.models with
  | none => exact ⟨rfl, rfl⟩
  | some m =>
    constructor
    · simp only [updateModel_alook, hk, if_neg, not_false_iff]
    · have hk2 : ¬(id = k) := fun hc => hk hc.symm
      by_cases he : (identifyExternalSources c.definedImports t2m m).2 = [] <;>
        simp [he, hk2]

theorem calcExtStep_self (t2m : List (String × String)) (c : Collection)
    (id : String) {m0 : SqlModel} (hm : alook id c.models = some m0) :
    alook id (calcExtStep t2m c id).models =
      some { m0 with
        externalSources := (identifyExternalSources c.definedImports t2m m0).1 } ∧
      alook id (calcExtStep t2m c id).missingImports =
        (if (identifyExternalSources c.definedImports t2m m0).2 = []
         then alook id c.missingImports
         else some (identifyExternalSources c.definedImports t2m m0).2) := by
  unfold calcExtStep
  rw [hm]
  constructor
  · simp [updateModel_alook, hm]
  · by_cases he : (identifyExternalSources c.definedImports t2m m0).2 = [] <;>
      simp [he]

theorem calcExt_char (t2m : List (String × String)) :
    ∀ (ids : List String) (c : Collection), ids.Nodup →
      ((calcExternalSources t2m ids c).definedImports = c.definedImports ∧
        (calcExternalSources t2m ids c).childMap = c.childMap ∧
        (calcExternalSources t2m ids c).parentMap = c.parentMap) ∧
      (∀ id, id ∉ ids →
        alook id (calcExternalSources t2m ids c).models = alook id c.models ∧
        alook id (calcExternalSources t2m ids c).missingImports =
          alook id c.missingImports) ∧
      (∀ id ∈ ids, ∀ m0, alook id c.models = some m0 →
        alook id (calcExternalSources t2m ids c).models =
          some { m0 with
            externalSources :=
              (identifyExternalSources c.definedImports t2m m0).1 } ∧
        alook id (calcExternalSources t2m ids c).missingImports =
          (if (identifyExternalSources c.definedImports t2m m0).2 = []
           then alook id c.missingImports
           else some (identifyExternalSources c.definedImports t2m m0).2)) := by
  intro ids
  induction ids with
  | nil =>
    intro c _
    refine ⟨⟨rfl, rfl, rfl⟩, fun id _ => ⟨rfl, rfl⟩, fun id h => absurd h (by simp)⟩
  | cons id0 rest ih =>
    intro c hnd
    have hnd0 : id0 ∉ rest := (List.nodup_cons.mp hnd).1
    have hndr : rest.Nodup := (List.nodup_cons.mp hnd).2
    have hstep : calcExternalSources t2m (id0 :: rest) c =
        calcExternalSources t2m rest (calcExtStep t2m c id0) := rfl
    obtain ⟨ihc, iho, ihs⟩ := ih (calcExtStep t2m c id0) hndr
    have hc0 := calcExtStep_const t2m c id0
    refine ⟨⟨?_, ?_, ?_⟩, ?_, ?_⟩
    · rw [hstep, ihc.1, hc0.1]
    · rw [hstep, ihc.2.1, hc0.2.1]
    · rw [hstep, ihc.2.2, hc0.2.2]
    · intro id hid
      have hid0 : ¬(id = id0) := fun hc => hid (hc ▸ List.mem_cons_self _ _)
      have hidr : id ∉ rest := fun hc => hid (List.mem_cons_of_mem _ hc)
      obtain ⟨ho1, ho2⟩ := iho id hidr
      obtain ⟨hs1, hs2⟩ := calcExtStep_other t2m c id0 id hid0
      rw [hstep]
      exact ⟨ho1.trans hs1, ho2.trans hs2⟩
    · intro id hid m0 hm0
      rcases List.mem_cons.mp hid with rfl | hidr
      · obtain ⟨ho1, ho2⟩ := iho id hnd0
        obtain ⟨hs1, hs2⟩ := calcExtStep_self t2m c id hm0
        rw [hstep]
        exact ⟨ho1.trans hs1, ho2.trans hs2⟩
      · have hid0 : ¬(id = id0) := fun hc => hnd0 (hc ▸ hidr)
        obtain ⟨hs1, hs2⟩ := calcExtStep_other t2m c id0 id hid0
        obtain ⟨hi1, hi2⟩ := ihs id hidr m0 (hs1.trans hm0)
        rw [hstep]
        constructor
        · rw [hi1, hc0.1]
        · rw [hi2, hc0.1, hs2]

theorem calcExt_keys (t2m : List (String × String)) :
    ∀ (ids : List String) (c : Collection),
      (calcExternalSources t2m ids c).models.map Prod.fst =
        c.models.map Prod.fst
  | [], _ => rfl
  | id :: rest, c => by
    have hstep : calcExternalSources t2m (id :: rest) c =
        calcExternalSources t2m rest (calcExtStep t2m c id) := rfl
    rw [hstep, calcExt_keys t2m rest, calcExtStep_keys]

/-! ## The depth computation: invariants. -/

theorem markFun_idem (m : SqlModel) : markFun (markFun m) = markFun m := by
  unfold markFun
  by_cases h : m.upstreamModels = [] <;> simp [h]

theorem mark_alook :
    ∀ (ids : List String) (ms : List (String × SqlModel)) (k : String),
      alook k (markSourceNodes ids ms) =
        if k ∈ ids then (alook k ms).map markFun else alook k ms
  | [], ms, k => by simp [markSourceNodes]
  | id :: rest, ms, k => by
    have hstep : markSourceNodes (id :: rest) ms =
        markSourceNodes rest (updateModel id markFun ms) := rfl
    rw [hstep, mark_alook rest]
    simp only [updateModel_alook]
    by_cases h2 : k = id
    · by_cases h1 : k ∈ rest
      · rw [if_pos h1, if_pos h2, if_pos (h2 ▸ List.mem_cons_self id rest)]
        cases alook k ms <;> simp [markFun_idem]
      · rw [if_neg h1, if_pos h2, if_pos (h2 ▸ List.mem_cons_self id rest)]
    · by_cases h1 : k ∈ rest
      · rw [if_pos h1, if_neg h2, if_pos (List.mem_cons_of_mem id h1)]
      · rw [if_neg h1, if_neg h2,
          if_neg (fun hc => (List.mem_cons.mp hc).elim h2 h1)]

theorem mark_keys :
    ∀ (ids : List String) (ms : List (String × SqlModel)),
      (markSourceNodes ids ms).map Prod.fst = ms.map Prod.fst
  | [], _ => rfl
  | id :: rest, ms => by
    have hstep : markSourceNodes (id :: rest) ms =
        markSourceNodes rest (updateModel id markFun ms) := rfl
    rw [hstep, mark_keys rest, updateModel_keys]

theorem reset_alook (ms : List (String × SqlModel)) (k : String) :
    alook k (resetDepths ms) = (alook k ms).map resetFun := by
  unfold resetDepths
  exact alook_map_value k resetFun ms

theorem reset_keys (ms : List (String × SqlModel)) :
    (resetDepths ms).map Prod.fst = ms.map Prod.fst := by
  unfold resetDepths
  rw [List.map_map]
  rfl

/-- The invariant the depth computation maintains: a model with no
upstreams has depth 0; a model with depth 0 has no upstreams; a model with
depth d+1 has every present upstream assigned a depth at most d, with d
attained. -/
def Inv (ms : List (String × SqlModel)) : Prop :=
  ∀ id m, alook id ms = some m →
    (m.upstreamModels = [] → m.depth = some 0) ∧
    (m.depth = some 0 → m.upstreamModels = []) ∧
    (∀ d, m.depth = some (d + 1) →
      (∀ u ∈ m.upstreamModels, ∀ mu, alook u ms = some mu →
        ∃ du, mu.depth = some du ∧ du ≤ d) ∧
      (∃ u ∈ m.upstreamModels, ∃ mu, alook u ms = some mu ∧
        mu.depth = some d))

theorem inv_ext {ms ms2 : List (String × SqlModel)}
    (h : ∀ k, alook k ms2 = alook k ms) (hinv : Inv ms) : Inv ms2 := by
  intro id m hm
  rw [h] at hm
  obtain ⟨h1, h2, h3⟩ := hinv id m hm
  refine ⟨h1, h2, ?_⟩
  intro d hd
  obtain ⟨ha, hb⟩ := h3 d hd
  constructor
  · intro u hu mu hmu
    rw [h] at hmu
    exact ha u hu mu hmu
  · obtain ⟨u, hu, mu, hmu, hdep⟩ := hb
    exact ⟨u, hu, mu, (h u).symm ▸ hmu, hdep⟩

theorem inv_init (ms : List (String × SqlModel)) :
    Inv (markSourceNodes (ms.map Prod.fst) (resetDepths ms)) := by
  intro id m hm
  rw [mark_alook] at hm
  by_cases hid : id ∈ ms.map Prod.fst
  · rw [if_pos hid, reset_alook] at hm
    cases h0 : alook id ms with
    | none => rw [h0] at hm; cases hm
    | some m0 =>
      rw [h0] at hm
      simp only [Option.map_some'] at hm
      cases hm
      have hup2 : (markFun (resetFun m0)).upstreamModels = m0.upstreamModels := by
        unfold markFun resetFun
        split <;> rfl
      have hdep2 : (markFun (resetFun m0)).depth =
          (if m0.upstreamModels = [] then some 0 else none) := by
        by_cases hu : m0.upstreamModels = [] <;> simp [markFun, resetFun, hu]
      refine ⟨?_, ?_, ?_⟩
      · intro h
        rw [hup2] at h
        rw [hdep2, if_pos h]
      · intro h
        rw [hdep2] at h
        rw [hup2]
        by_cases hu : m0.upstreamModels = []
        · exact hu
        · rw [if_neg hu] at h; cases h
      · intro d hd
        rw [hdep2] at hd
        by_cases hu : m0.upstreamModels = []
        · rw [if_pos hu] at hd
          injection hd with hd2
          exact absurd hd2.symm (Nat.succ_ne_zero d)
        · rw [if_neg hu] at hd; cases hd
  · rw [if_neg hid] at hm
    exfalso
    have : (alook id (resetDepths ms)).isSome := by rw [hm]; rfl
    have hmem := mem_keys_of_alook_isSome this
    rw [reset_keys] at hmem
    exact hid hmem

/-! ## Scan lemmas for `check_model_dependencies`. -/

theorem scan_all_some :
    ∀ (l : List String) (ms : List (String × SqlModel)) (acc maxd : Option Nat),
      scanUpstreams ms acc l = (true, maxd) →
      ∀ u ∈ l, ∀ mu, alook u ms = some mu → ∃ du, mu.depth = some du
  | [], _, _, _, _ => by intro u hu; cases hu
  | u0 :: rest, ms, acc, maxd, h => by
    intro u hu mu hmu
    unfold scanUpstreams at h
    split at h
    · rename_i halook
      rcases List.mem_cons.mp hu with rfl | hu2
      · rw [halook] at hmu; cases hmu
      · exact scan_all_some rest ms acc maxd h u hu2 mu hmu
    · rename_i mu0 halook
      split at h
      · rename_i d hd
        rcases List.mem_cons.mp hu with rfl | hu2
        · rw [halook] at hmu
          cases hmu
          exact ⟨d, hd⟩
        · exact scan_all_some rest ms _ maxd h u hu2 mu hmu
      · cases h

theorem scan_bound :
    ∀ (l : List String) (ms : List (String × SqlModel)) (acc : Option Nat)
      (v : Nat),
      scanUpstreams ms acc l = (true, some v) →
      (∀ a, acc = some a → a ≤ v) ∧
      (∀ u ∈ l, ∀ mu, alook u ms = some mu → ∀ du, mu.depth = some du →
        du ≤ v)
  | [], ms, acc, v, h => by
    unfold scanUpstreams at h
    injection h with _ h2
    refine ⟨?_, ?_⟩
    · intro a ha
      rw [ha] at h2
      injection h2 with h3
      exact h3.le
    · intro u hu; cases hu
  | u0 :: rest, ms, acc, v, h => by
    unfold scanUpstreams at h
    split at h
    · rename_i halook
      obtain ⟨ih1, ih2⟩ := scan_bound rest ms acc v h
      refine ⟨ih1, ?_⟩
      intro u hu mu hmu du hdu
      rcases List.mem_cons.mp hu with rfl | hu2
      · rw [halook] at hmu; cases hmu
      · exact ih2 u hu2 mu hmu du hdu
    · rename_i mu0 halook
      split at h
      · rename_i d hd
        obtain ⟨ih1, ih2⟩ := scan_bound rest ms _ v h
        have hmax : (acc.getD 0).max d ≤ v := ih1 _ rfl
        refine ⟨?_, ?_⟩
        · intro a ha
          have h2 : a ≤ (acc.getD 0).max d := by
            rw [ha]
            exact Nat.le_max_left a d
          exact h2.trans hmax
        · intro u hu mu hmu du hdu
          rcases List.mem_cons.mp hu with rfl | hu2
          · rw [halook] at hmu
            cases hmu
            rw [hd] at hdu
            injection hdu with hdu2
            subst hdu2
            exact (Nat.le_max_right (acc.getD 0) d).trans hmax
          · exact ih2 u hu2 mu hmu du hdu
      · cases h

theorem scan_attained :
    ∀ (l : List String) (ms : List (String × SqlModel)) (acc : Option Nat)
      (v : Nat),
      scanUpstreams ms acc l = (true, some v) →
      acc = some v ∨
        ∃ u ∈ l, ∃ mu, alook u ms = some mu ∧ mu.depth = some v
  | [], ms, acc, v, h => by
    unfold scanUpstreams at h
    injection h with _ h2
    exact Or.inl h2
  | u0 :: rest, ms, acc, v, h => by
    unfold scanUpstreams at h
    split at h
    · rename_i halook
      rcases scan_attained rest ms acc v h with ha | ⟨u, hu, mu, hmu, hd⟩
      · exact Or.inl ha
      · exact Or.inr ⟨u, List.mem_cons_of_mem _ hu, mu, hmu, hd⟩
    · rename_i mu0 halook
      split at h
      · rename_i d hd
        rcases scan_attained rest ms _ v h with ha | ⟨u, hu, mu, hmu, hdep⟩
        · injection ha with ha2
          cases hacc : acc with
          | none =>
            rw [hacc] at ha2
            simp only [Option.getD_none, Nat.zero_max] at ha2
            exact Or.inr ⟨u0, List.mem_cons_self _ _, mu0, halook,
              ha2 ▸ hd⟩
          | some a =>
            rw [hacc] at ha2
            simp only [Option.getD_some] at ha2
            have ha2m : max a d = v := ha2
            rcases Nat.le_total a d with hle | hle
            · rw [Nat.max_eq_right hle] at ha2m
              exact Or.inr ⟨u0, List.mem_cons_self _ _, mu0, halook,
                ha2m ▸ hd⟩
            · rw [Nat.max_eq_left hle] at ha2m
              exact Or.inl (by rw [ha2m])
        · exact Or.inr ⟨u, List.mem_cons_of_mem _ hu, mu, hmu, hdep⟩
      · cases h

theorem scan_true_none :
    ∀ (l : List String) (ms : List (String × SqlModel)) (acc : Option Nat),
      scanUpstreams ms acc l = (true, none) →
      acc = none ∧ ∀ u ∈ l, alook u ms = none
  | [], ms, acc, h => by
    unfold scanUpstreams at h
    injection h with _ h2
    exact ⟨h2, fun u hu => absurd hu (by simp)⟩
  | u0 :: rest, ms, acc, h => by
    unfold scanUpstreams at h
    split at h
    · rename_i halook
      obtain ⟨ih1, ih2⟩ := scan_true_none rest ms acc h
      refine ⟨ih1, ?_⟩
      intro u hu
      rcases List.mem_cons.mp hu with rfl | hu2
      · exact halook
      · exact ih2 u hu2
    · rename_i mu0 halook
      split at h
      · rename_i d hd
        obtain ⟨ih1, _⟩ := scan_true_none rest ms _ h
        cases ih1
      · cases h

theorem check_true_elim {ms : List (String × SqlModel)} {id : String}
    {maxd : Option Nat}
    (h : checkModelDependencies ms id = some (true, maxd)) :
    ∃ m, alook id ms = some m ∧ m.upstreamModels ≠ [] ∧ m.depth = none ∧
      scanUpstreams ms none m.upstreamModels = (true, maxd) := by
  unfold checkModelDependencies at h
  split at h
  · cases h
  · rename_i m halook
    split at h
    · exfalso
      injection h with h2
      injection h2 with h3 _
      cases h3
    · rename_i hg
      push_neg at hg
      injection h with h2
      refine ⟨m, halook, hg.1, ?_, h2⟩
      cases hdep : m.depth with
      | none => rfl
      | some d => rw [hdep] at hg; exact absurd rfl hg.2

theorem set_depth_none_eq {m : SqlModel} (h : m.depth = none) :
    { m with depth := none } = m := by
  cases m
  simp_all

theorem update_inv {ms : List (String × SqlModel)} {id : String}
    {m : SqlModel} {maxd : Option Nat} (hm : alook id ms = some m)
    (hne : m.upstreamModels ≠ []) (hdep : m.depth = none)
    (hscan : scanUpstreams ms none m.upstreamModels = (true, maxd))
    (hinv : Inv ms) :
    Inv (updateModel id (fun m2 => { m2 with depth := maxd.map (· + 1) })
      ms) := by
  cases maxd with
  | none =>
    refine inv_ext (fun k => ?_) hinv
    rw [updateModel_alook]
    by_cases hk : k = id
    · subst hk
      rw [if_pos rfl, hm]
      simp only [Option.map_some', Option.map_none']
      rw [set_depth_none_eq hdep]
    · rw [if_neg hk]
  | some v =>
    have hAll := scan_all_some _ ms none (some v) hscan
    have hBound := (scan_bound _ ms none v hscan).2
    intro k mk hk
    rw [updateModel_alook] at hk
    by_cases hkid : k = id
    · subst hkid
      rw [if_pos rfl, hm] at hk
      simp only [Option.map_some'] at hk
      cases hk
      refine ⟨fun hup => absurd hup hne, fun h0 => ?_, fun d hd => ?_⟩
      · exfalso
        injection h0 with h0b
        exact Nat.succ_ne_zero v h0b
      · injection hd with hd2
        have hvd : v = d := by omega
        subst hvd
        constructor
        · intro u hu mu hmu
          rw [updateModel_alook] at hmu
          by_cases huid : u = k
          · exfalso
            subst huid
            obtain ⟨du, hdu⟩ := hAll u hu m hm
            rw [hdep] at hdu
            cases hdu
          · rw [if_neg huid] at hmu
            obtain ⟨du, hdu⟩ := hAll u hu mu hmu
            exact ⟨du, hdu, hBound u hu mu hmu du hdu⟩
        · rcases scan_attained _ ms none v hscan with hc | ⟨u0, hu0, mu0, hmu0, hd0⟩
          · cases hc
          · have hu0id : ¬(u0 = k) := by
              intro hc
              rw [hc, hm] at hmu0
              injection hmu0 with he
              rw [he, hd0] at hdep
              cases hdep
            refine ⟨u0, hu0, mu0, ?_, hd0⟩
            rw [updateModel_alook, if_neg hu0id]
            exact hmu0
    · rw [if_neg hkid] at hk
      obtain ⟨h1, h2, h3⟩ := hinv k mk hk
      refine ⟨h1, h2, ?_⟩
      intro d hd
      obtain ⟨ha, hb⟩ := h3 d hd
      constructor
      · intro u hu mu hmu
        rw [updateModel_alook] at hmu
        by_cases huid : u = id
        · exfalso
          subst huid
          obtain ⟨du, hdu, _⟩ := ha u hu m hm
          rw [hdep] at hdu
          cases hdu
        · rw [if_neg huid] at hmu
          exact ha u hu mu hmu
      · obtain ⟨u0, hu0, mu0, hmu0, hd0⟩ := hb
        have hu0id : ¬(u0 = id) := by
          intro hc
          rw [hc, hm] at hmu0
          injection hmu0 with he
          rw [he, hd0] at hdep
          cases hdep
        refine ⟨u0, hu0, mu0, ?_, hd0⟩
        rw [updateModel_alook, if_neg hu0id]
        exact hmu0

theorem passStep_inv (st : List (String × SqlModel) × Bool) (id : String)
    (hinv : Inv st.1) : Inv (passStep st id).1 := by
  unfold passStep
  split
  · exact hinv
  · split
    · rename_i maxd hcheck
      obtain ⟨m, hm, hne, hdep, hscan⟩ := check_true_elim hcheck
      exact update_inv hm hne hdep hscan hinv
    · exact hinv

theorem passFold_inv :
    ∀ (ids : List String) (st : List (String × SqlModel) × Bool),
      Inv st.1 → Inv (passFold ids st).1
  | [], _, h => h
  | id :: rest, st, h => passFold_inv rest _ (passStep_inv st id h)

theorem onePass_inv (ids : List String) (ms : List (String × SqlModel))
    (h : Inv ms) : Inv (onePass ids ms).1 :=
  passFold_inv ids (ms, false) h

theorem depthLoop_inv (ids : List String) :
    ∀ (fuel : Nat) (ms : List (String × SqlModel)),
      Inv ms → Inv (depthLoop ids fuel ms).1
  | 0, _, h => h
  | fuel + 1, ms, h => by
    unfold depthLoop
    split
    · rename_i ms2 heq
      apply depthLoop_inv ids fuel
      have h2 := onePass_inv ids ms h
      rw [heq] at h2
      exact h2
    · rename_i ms2 heq
      have h2 := onePass_inv ids ms h
      rw [heq] at h2
      exact h2

theorem calcModelDepths_inv (c : Collection) :
    Inv (calcModelDepths c).1.models := by
  unfold calcModelDepths
  exact depthLoop_inv _ _ _ (inv_init c.models)

theorem calcModelDepths_const (c : Collection) :
    (calcModelDepths c).1.childMap = c.childMap ∧
      (calcModelDepths c).1.parentMap = c.parentMap ∧
      (calcModelDepths c).1.definedImports = c.definedImports ∧
      (calcModelDepths c).1.missingImports = c.missingImports := by
  unfold calcModelDepths
  exact ⟨rfl, rfl, rfl, rfl⟩

/-! ## Depth-only evolution: every non-depth field survives the depth
computation. -/

/-- Forget the depth field. -/
def stripD (m : SqlModel) : SqlModel := { m with depth := none }

/-- `ms2` differs from `ms` only in depth fields. -/
def depthEvol (ms ms2 : List (String × SqlModel)) : Prop :=
  ∀ k, (alook k ms2).map stripD = (alook k ms).map stripD

theorem depthEvol_refl (ms : List (String × SqlModel)) : depthEvol ms ms :=
  fun _ => rfl

theorem depthEvol_trans {a b c : List (String × SqlModel)}
    (h1 : depthEvol a b) (h2 : depthEvol b c) : depthEvol a c :=
  fun k => (h2 k).trans (h1 k)

theorem updateModel_evol (f : SqlModel → SqlModel)
    (hf : ∀ m, stripD (f m) = stripD m) (id : String)
    (ms : List (String × SqlModel)) : depthEvol ms (updateModel id f ms) := by
  intro k
  rw [updateModel_alook]
  by_cases hk : k = id
  · rw [if_pos hk]
    cases alook k ms <;> simp [hf]
  · rw [if_neg hk]

theorem stripD_depth_set (m : SqlModel) (d : Option Nat) :
    stripD { m with depth := d } = stripD m := rfl

theorem reset_evol (ms : List (String × SqlModel)) :
    depthEvol ms (resetDepths ms) := by
  intro k
  rw [reset_alook]
  cases alook k ms <;> simp [resetFun, stripD]

theorem mark_evol :
    ∀ (ids : List String) (ms : List (String × SqlModel)),
      depthEvol ms (markSourceNodes ids ms)
  | [], _ => depthEvol_refl _
  | id :: rest, ms => by
    have hstep : markSourceNodes (id :: rest) ms =
        markSourceNodes rest (updateModel id markFun ms) := rfl
    rw [hstep]
    refine depthEvol_trans ?_ (mark_evol rest _)
    apply updateModel_evol
    intro m
    unfold markFun
    split <;> rfl

theorem passStep_evol (st : List (String × SqlModel) × Bool) (id : String) :
    depthEvol st.1 (passStep st id).1 := by
  unfold passStep
  split
  · exact depthEvol_refl _
  · split
    · rename_i maxd hcheck
      exact updateModel_evol
        (fun m2 => { m2 with depth := maxd.map (· + 1) })
        (fun m => rfl) id st.1
    · exact depthEvol_refl _

theorem passFold_evol :
    ∀ (ids : List String) (st : List (String × SqlModel) × Bool),
      depthEvol st.1 (passFold ids st).1
  | [], _ => depthEvol_refl _
  | id :: rest, st =>
    depthEvol_trans (passStep_evol st id) (passFold_evol rest (passStep st id))

theorem depthLoop_evol (ids : List String) :
    ∀ (fuel : Nat) (ms : List (String × SqlModel)),
      depthEvol ms (depthLoop ids fuel ms).1
  | 0, _ => depthEvol_refl _
  | fuel + 1, ms => by
    unfold depthLoop
    split
    · rename_i ms2 heq
      have h2 : depthEvol ms (onePass ids ms).1 := passFold_evol ids (ms, false)
      rw [heq] at h2
      exact depthEvol_trans h2 (depthLoop_evol ids fuel ms2)
    · rename_i ms2 heq
      have h2 : depthEvol ms (onePass ids ms).1 := passFold_evol ids (ms, false)
      rw [heq] at h2
      exact h2

theorem calcModelDepths_evol (c : Collection) :
    depthEvol c.models (calcModelDepths c).1.models := by
  unfold calcModelDepths
  exact depthEvol_trans
    (depthEvol_trans (reset_evol c.models) (mark_evol _ _))
    (depthLoop_evol _ _ _)

theorem depthEvol_elim {ms ms2 : List (String × SqlModel)}
    (h : depthEvol ms ms2) {k : String} {m2 : SqlModel}
    (hk : alook k ms2 = some m2) :
    ∃ m, alook k ms = some m ∧ m2.name = m.name ∧ m2.schema = m.schema ∧
      m2.referencedTables = m.referencedTables ∧
      m2.upstreamModels = m.upstreamModels ∧
      m2.downstreamModels = m.downstreamModels ∧
      m2.externalSources = m.externalSources := by
  have h2 := h k
  rw [hk] at h2
  cases hm : alook k ms with
  | none => rw [hm] at h2; cases h2
  | some m =>
    rw [hm] at h2
    simp only [Option.map_some'] at h2
    injection h2 with h3
    cases m2 with
    | mk n2 s2 r2 u2 d2 e2 dep2 =>
      cases m with
      | mk n s r u d e dep =>
        simp only [stripD, SqlModel.mk.injEq, and_true] at h3
        refine ⟨_, rfl, ?_, ?_, ?_, ?_, ?_, ?_⟩ <;> simp_all

theorem depthEvol_isSome {ms ms2 : List (String × SqlModel)}
    (h : depthEvol ms ms2) (k : String) :
    (alook k ms2).isSome = (alook k ms).isSome := by
  have h2 := h k
  cases ha : alook k ms2 <;> cases hb : alook k ms <;>
    rw [ha, hb] at h2 <;> simp_all

/-! ## Termination of the depth loop (for closed upstream references). -/

/-- Number of records without a depth (duplicates included). -/
def countNone (ms : List (String × SqlModel)) : Nat :=
  (ms.filter (fun p => p.2.depth.isNone)).length

/-- All upstream references of all records resolve to keys of the map. -/
def upClosed (ms : List (String × SqlModel)) : Prop :=
  ∀ p ∈ ms, ∀ u ∈ p.2.upstreamModels, u ∈ ms.map Prod.fst

theorem countNone_cons_true {p : String × SqlModel}
    {l : List (String × SqlModel)} (h : p.2.depth.isNone = true) :
    countNone (p :: l) = countNone l + 1 := by
  unfold countNone
  rw [List.filter_cons]
  simp [h]

theorem countNone_cons_false {p : String × SqlModel}
    {l : List (String × SqlModel)} (h : p.2.depth.isNone = false) :
    countNone (p :: l) = countNone l := by
  unfold countNone
  rw [List.filter_cons]
  simp [h]

theorem countNone_update_le (id : String) (f : SqlModel → SqlModel)
    (hf : ∀ m, ((f m).depth).isSome = true) :
    ∀ ms : List (String × SqlModel),
      countNone (updateModel id f ms) ≤ countNone ms
  | [] => Nat.le_refl 0
  | p :: rest => by
    have hstep : updateModel id f (p :: rest) =
        (if p.1 = id then (p.1, f p.2) else p) :: updateModel id f rest := rfl
    rw [hstep]
    have ih := countNone_update_le id f hf rest
    by_cases hp : p.1 = id
    · rw [if_pos hp]
      have hfd : ((f p.2).depth).isNone = false := by
        have hs := hf p.2
        cases hq : (f p.2).depth with
        | none => rw [hq] at hs; cases hs
        | some d => rfl
      rw [countNone_cons_false hfd]
      cases hb : (p.2.depth).isNone
      · rw [countNone_cons_false hb]
        omega
      · rw [countNone_cons_true hb]
        omega
    · rw [if_neg hp]
      cases hb : (p.2.depth).isNone
      · rw [countNone_cons_false hb, countNone_cons_false hb]
        omega
      · rw [countNone_cons_true hb, countNone_cons_true hb]
        omega

theorem countNone_update_lt (id : String) (f : SqlModel → SqlModel)
    (hf : ∀ m, ((f m).depth).isSome = true) :
    ∀ (ms : List (String × SqlModel)) (m : SqlModel),
      alook id ms = some m → m.depth = none →
      countNone (updateModel id f ms) < countNone ms
  | [], m, hm, _ => by cases hm
  | p :: rest, m, hm, hdep => by
    have hstep : updateModel id f (p :: rest) =
        (if p.1 = id then (p.1, f p.2) else p) :: updateModel id f rest := rfl
    rw [hstep]
    by_cases hp : p.1 = id
    · rw [alook_cons, if_pos hp] at hm
      injection hm with hm2
      subst hm2
      rw [if_pos hp]
      have hfd : ((f p.2).depth).isNone = false := by
        have hs := hf p.2
        cases hq : (f p.2).depth with
        | none => rw [hq] at hs; cases hs
        | some d => rfl
      have hod : (p.2.depth).isNone = true := by rw [hdep]; rfl
      rw [countNone_cons_false hfd, countNone_cons_true hod]
      have ih := countNone_update_le id f hf rest
      omega
    · rw [alook_cons, if_neg hp] at hm
      rw [if_neg hp]
      have ih := countNone_update_lt id f hf rest m hm hdep
      cases hb : (p.2.depth).isNone
      · rw [countNone_cons_false hb, countNone_cons_false hb]
        omega
      · rw [countNone_cons_true hb, countNone_cons_true hb]
        omega

theorem updateModel_upClosed (id : String) (f : SqlModel → SqlModel)
    (hf : ∀ m, (f m).upstreamModels = m.upstreamModels)
    (ms : List (String × SqlModel)) (h : upClosed ms) :
    upClosed (updateModel id f ms) := by
  intro p hp u hu
  unfold updateModel at hp
  rw [List.mem_map] at hp
  obtain ⟨q, hq, hpq⟩ := hp
  rw [updateModel_keys]
  subst hpq
  by_cases hq1 : q.1 = id
  · rw [if_pos hq1] at hu
    have hu2 : u ∈ q.2.upstreamModels := by
      rw [← hf q.2]
      exact hu
    exact h q hq u hu2
  · rw [if_neg hq1] at hu
    exact h q hq u hu

theorem passStep_upClosed (st : List (String × SqlModel) × Bool) (id : String)
    (hc : upClosed st.1) : upClosed (passStep st id).1 := by
  unfold passStep
  split
  · exact hc
  · split
    · rename_i maxd hcheck
      exact updateModel_upClosed id
        (fun m => { m with depth := maxd.map (· + 1) }) (fun m => rfl) st.1 hc
    · exact hc

theorem passStep_progress (st : List (String × SqlModel) × Bool) (id : String)
    (hc : upClosed st.1) :
    passStep st id = st ∨
      ((passStep st id).2 = true ∧
        countNone (passStep st id).1 < countNone st.1) := by
  unfold passStep
  split
  · exact Or.inl rfl
  · split
    · rename_i maxd hcheck
      right
      obtain ⟨m, hm, hne, hdep, hscan⟩ := check_true_elim hcheck
      cases maxd with
      | none =>
        exfalso
        obtain ⟨_, hall⟩ := scan_true_none _ st.1 none hscan
        cases hup : m.upstreamModels with
        | nil => exact hne hup
        | cons u0 us =>
          have hu0 : u0 ∈ m.upstreamModels := by
            rw [hup]
            exact List.mem_cons_self _ _
          have hkey := hc (id, m) (alook_mem hm) u0 hu0
          have hsome := alook_isSome_of_mem_keys hkey
          rw [hall u0 hu0] at hsome
          cases hsome
      | some v =>
        refine ⟨rfl, ?_⟩
        exact countNone_update_lt id
          (fun m2 => { m2 with depth := Option.map (· + 1) (some v) })
          (fun m2 => rfl) st.1 m hm hdep
    · exact Or.inl rfl

theorem passStep_le (st : List (String × SqlModel) × Bool) (id : String)
    (hc : upClosed st.1) :
    countNone (passStep st id).1 ≤ countNone st.1 := by
  rcases passStep_progress st id hc with heq | ⟨_, hlt⟩
  · rw [heq]
  · exact Nat.le_of_lt hlt

theorem passFold_props :
    ∀ (ids : List String) (st : List (String × SqlModel) × Bool),
      upClosed st.1 →
      upClosed (passFold ids st).1 ∧
        countNone (passFold ids st).1 ≤ countNone st.1 ∧
        ((passFold ids st).2 = true →
          st.2 = true ∨ countNone (passFold ids st).1 < countNone st.1)
  | [], _, hc => ⟨hc, Nat.le_refl _, fun h => Or.inl h⟩
  | id :: rest, st, hc => by
    have hcs : upClosed (passStep st id).1 := passStep_upClosed st id hc
    obtain ⟨f1, f2, f3⟩ := passFold_props rest (passStep st id) hcs
    refine ⟨f1, f2.trans (passStep_le st id hc), ?_⟩
    intro htrue
    rcases f3 htrue with hb | hlt
    · rcases passStep_progress st id hc with heq | ⟨_, hlt2⟩
      · rw [heq] at hb
        exact Or.inl hb
      · exact Or.inr (Nat.lt_of_le_of_lt f2 hlt2)
    · exact Or.inr (Nat.lt_of_lt_of_le hlt (passStep_le st id hc))

theorem onePass_props (ids : List String) (ms : List (String × SqlModel))
    (hc : upClosed ms) :
    upClosed (onePass ids ms).1 ∧
      countNone (onePass ids ms).1 ≤ countNone ms ∧
      ((onePass ids ms).2 = true →
        countNone (onePass ids ms).1 < countNone ms) := by
  obtain ⟨a, b, c⟩ := passFold_props ids (ms, false) hc
  refine ⟨a, b, fun h => ?_⟩
  rcases c h with hb | hlt
  · cases hb
  · exact hlt

theorem depthLoop_stable (ids : List String) :
    ∀ (fuel : Nat) (ms : List (String × SqlModel)),
      upClosed ms → countNone ms < fuel →
      (depthLoop ids fuel ms).2 = true
  | 0, _, _, hlt => absurd hlt (Nat.not_lt_zero _)
  | fuel + 1, ms, hc, hlt => by
    unfold depthLoop
    split
    · rename_i ms2 heq
      obtain ⟨a, b, c⟩ := onePass_props ids ms hc
      rw [heq] at a b c
      have hstrict : countNone ms2 < countNone ms := c rfl
      exact depthLoop_stable ids fuel ms2 a (by omega)
    · rfl

theorem reset_upClosed (ms : List (String × SqlModel)) (h : upClosed ms) :
    upClosed (resetDepths ms) := by
  intro p hp u hu
  unfold resetDepths at hp
  rw [List.mem_map] at hp
  obtain ⟨q, hq, hpq⟩ := hp
  rw [reset_keys]
  subst hpq
  exact h q hq u hu

theorem mark_upClosed :
    ∀ (ids : List String) (ms : List (String × SqlModel)),
      upClosed ms → upClosed (markSourceNodes ids ms)
  | [], _, h => h
  | id :: rest, ms, h => by
    have hstep : markSourceNodes (id :: rest) ms =
        markSourceNodes rest (updateModel id markFun ms) := rfl
    rw [hstep]
    apply mark_upClosed rest
    apply updateModel_upClosed id markFun _ ms h
    intro m
    unfold markFun
    split <;> rfl

theorem countNone_le_length (ms : List (String × SqlModel)) :
    countNone ms ≤ ms.length :=
  List.length_filter_le _ ms

theorem calcModelDepths_stable (c : Collection) (hc : upClosed c.models) :
    (calcModelDepths c).2 = true := by
  unfold calcModelDepths
  apply depthLoop_stable
  · exact mark_upClosed _ _ (reset_upClosed _ hc)
  · exact Nat.lt_succ_of_le (countNone_le_length _)

/-! ## Cyclic records never receive a depth. -/

/-- `b` is an upstream of `a` in the map `ms`. -/
def upstreamOf (ms : List (String × SqlModel)) (a b : String) : Prop :=
  ∃ m, alook a ms = some m ∧ b ∈ m.upstreamModels

/-- The depth recorded for `a`, if any. -/
def depthOf (ms : List (String × SqlModel)) (a : String) : Option Nat :=
  match alook a ms with
  | some m => m.depth
  | none => none

theorem depthOf_eq {ms : List (String × SqlModel)} {a : String} {m : SqlModel}
    (h : alook a ms = some m) : depthOf ms a = m.depth := by
  unfold depthOf
  rw [h]

theorem step_down {ms : List (String × SqlModel)} (hinv : Inv ms)
    {a b : String} {mb : SqlModel} (hab : upstreamOf ms a b)
    (hb : alook b ms = some mb) {d : Nat} (hd : depthOf ms a = some d) :
    ∃ db, mb.depth = some db ∧ db < d := by
  obtain ⟨ma, hma, hmem⟩ := hab
  rw [depthOf_eq hma] at hd
  obtain ⟨h1, h2, h3⟩ := hinv a ma hma
  cases d with
  | zero =>
    exfalso
    have hup := h2 hd
    rw [hup] at hmem
    cases hmem
  | succ e =>
    obtain ⟨ha, _⟩ := h3 e hd
    obtain ⟨db, hdb, hle⟩ := ha b hmem mb hb
    exact ⟨db, hdb, Nat.lt_succ_of_le hle⟩

theorem tg_source_present {ms : List (String × SqlModel)} {a b : String}
    (h : Relation.TransGen (upstreamOf ms) a b) :
    ∃ m, alook a ms = some m := by
  induction h with
  | single hstep => obtain ⟨m, hm, _⟩ := hstep; exact ⟨m, hm⟩
  | tail _ _ ih => exact ih

theorem tg_down {ms : List (String × SqlModel)} (hinv : Inv ms) :
    ∀ {a b : String}, Relation.TransGen (upstreamOf ms) a b →
      ∀ {mb : SqlModel}, alook b ms = some mb →
      ∀ {d : Nat}, depthOf ms a = some d →
      ∃ db, mb.depth = some db ∧ db < d := by
  intro a b htg
  induction htg with
  | single hstep =>
    intro mb hb d hd
    exact step_down hinv hstep hb hd
  | tail htg hstep ih =>
    intro mc hc d hd
    rename_i bmid cend
    obtain ⟨mb, hb, hbm⟩ := hstep
    obtain ⟨db, hdb, hlt⟩ := ih hb hd
    have hdOf : depthOf ms bmid = some db := by
      rw [depthOf_eq hb]
      exact hdb
    obtain ⟨dc, hdc, hlt2⟩ := step_down hinv ⟨mb, hb, hbm⟩ hc hdOf
    exact ⟨dc, hdc, hlt2.trans hlt⟩

theorem cycle_depth_none {ms : List (String × SqlModel)} {x : String}
    (hinv : Inv ms) (hcyc : Relation.TransGen (upstreamOf ms) x x) :
    depthOf ms x = none := by
  cases hd : depthOf ms x with
  | none => rfl
  | some d =>
    exfalso
    obtain ⟨mx, hmx⟩ := tg_source_present hcyc
    obtain ⟨db, hdb, hlt⟩ := tg_down hinv hcyc hmx hd
    rw [depthOf_eq hmx] at hd
    rw [hd] at hdb
    injection hdb with hdb2
    subst hdb2
    exact Nat.lt_irrefl d hlt

theorem downstream_cycle_depth_none {ms : List (String × SqlModel)}
    {y x : String} (hinv : Inv ms)
    (hyx : Relation.TransGen (upstreamOf ms) y x)
    (hxx : Relation.TransGen (upstreamOf ms) x x) :
    depthOf ms y = none := by
  cases hd : depthOf ms y with
  | none => rfl
  | some d =>
    exfalso
    obtain ⟨mx, hmx⟩ := tg_source_present hxx
    obtain ⟨dx, hdx, _⟩ := tg_down hinv hyx hmx hd
    have hnone := cycle_depth_none hinv hxx
    rw [depthOf_eq hmx] at hnone
    rw [hnone] at hdx
    cases hdx

/-- C4: the YAML `models` mapping is populated in the order given by the
hand-written `model_order` permutation, not sorted by `unique_id`
ascending.  With the two models below, ascending order would put the
`marts` id first, but `to_yaml` inserts the `staging` id first because the
hand-written list does.  (`version` is the constant 1 as claimed; the
emission order is where the code diverges from the claim.) -/
theorem toYaml_order_is_hand_written :
    toYamlVersion = 1 ∧
      toYamlModelIds
          (Collection.mk
            [("model.staging.stg_accounts.stg_accounts",
               SqlModel.mk "stg_accounts" none [] [] [] [] none),
             ("model.marts.core.customer_summary.customer_summary",
               SqlModel.mk "customer_summary" none [] [] [] [] none)]
            [] [] [] []) =
        ["model.staging.stg_accounts.stg_accounts",
         "model.marts.core.customer_summary.customer_summary"] ∧
      sortStrings
          ["model.staging.stg_accounts.stg_accounts",
           "model.marts.core.customer_summary.customer_summary"] =
        ["model.marts.core.customer_summary.customer_summary",
         "model.staging.stg_accounts.stg_accounts"] ∧
      toYamlModelIds
          (Collection.mk
            [("model.staging.stg_accounts.stg_accounts",
               SqlModel.mk "stg_accounts" none [] [] [] [] none),
             ("model.marts.core.customer_summary.customer_summary",
               SqlModel.mk "customer_summary" none [] [] [] [] none)]
            [] [] [] []) ≠
        sortStrings
          ["model.staging.stg_accounts.stg_accounts",
           "model.marts.core.customer_summary.customer_summary"] := by
  refine ⟨rfl, by decide, by decide, by decide⟩

/-- C5: `detect_cycles` is a stub that returns the empty list even for a
collection whose built edge relation contains the directed cycle
A → B → A. -/
theorem detectCycles_stub_on_cycle :
    ("B" ∈ lookupSet "A"
        (buildDependencyGraph (Collection.mk
          [("A", SqlModel.mk "a" none ["public.b"] [] [] [] none),
           ("B", SqlModel.mk "b" none ["public.a"] [] [] [] none)]
          [] [] [] [])).1.childMap ∧
      "A" ∈ lookupSet "B"
        (buildDependencyGraph (Collection.mk
          [("A", SqlModel.mk "a" none ["public.b"] [] [] [] none),
           ("B", SqlModel.mk "b" none ["public.a"] [] [] [] none)]
          [] [] [] [])).1.childMap) ∧
      detectCycles
        (buildDependencyGraph (Collection.mk
          [("A", SqlModel.mk "a" none ["public.b"] [] [] [] none),
           ("B", SqlModel.mk "b" none ["public.a"] [] [] [] none)]
          [] [] [] [])).1 = [] := by
  refine ⟨⟨by decide, by decide⟩, rfl⟩

/-! ## Factoring the whole graph build. -/

/-- The relationship list `build_dependency_graph` collects. -/
def graphRels (c : Collection) : List (String × String) :=
  collectRels c.models (c.models.map Prod.fst)
    (buildTableToModelMap c.models (c.models.map Prod.fst))

/-- The collection after the maps are cleared, the relationships collected
and the per-model neighbourhood sets updated — the state on which
`calculate_external_sources` and `calculate_model_depths` then run. -/
def graphMid (c : Collection) : Collection :=
  Collection.mk (updateRels c.models (graphRels c))
    (buildChildMap (graphRels c)) (buildParentMap (graphRels c))
    c.definedImports []

theorem graphMid_models (c : Collection) :
    (graphMid c).models = updateRels c.models (graphRels c) := rfl

theorem graphMid_childMap (c : Collection) :
    (graphMid c).childMap = buildChildMap (graphRels c) := rfl

theorem graphMid_parentMap (c : Collection) :
    (graphMid c).parentMap = buildParentMap (graphRels c) := rfl

theorem graphMid_definedImports (c : Collection) :
    (graphMid c).definedImports = c.definedImports := rfl

theorem graphMid_missingImports (c : Collection) :
    (graphMid c).missingImports = [] := rfl

theorem buildGraph_eq (c : Collection) :
    buildDependencyGraph c =
      calcModelDepths
        (calcExternalSources
          (buildTableToModelMap c.models (c.models.map Prod.fst))
          (c.models.map Prod.fst) (graphMid c)) := rfl

theorem calcExt_const (t2m : List (String × String)) :
    ∀ (ids : List String) (c : Collection),
      (calcExternalSources t2m ids c).childMap = c.childMap ∧
        (calcExternalSources t2m ids c).parentMap = c.parentMap ∧
        (calcExternalSources t2m ids c).definedImports = c.definedImports
  | [], _ => ⟨rfl, rfl, rfl⟩
  | id :: rest, c => by
    have hstep : calcExternalSources t2m (id :: rest) c =
        calcExternalSources t2m rest (calcExtStep t2m c id) := rfl
    have h1 := calcExt_const t2m rest (calcExtStep t2m c id)
    have h2 := calcExtStep_const t2m c id
    exact ⟨by rw [hstep, h1.1, h2.2.1], by rw [hstep, h1.2.1, h2.2.2],
      by rw [hstep, h1.2.2, h2.1]⟩

/-- Forget the two fields the external-source and depth phases write. -/
def stripX (m : SqlModel) : SqlModel :=
  { m with externalSources := [], depth := none }

theorem updateModel_alook_map (g f : SqlModel → SqlModel)
    (hf : ∀ m, g (f m) = g m) (id : String)
    (ms : List (String × SqlModel)) (k : String) :
    (alook k (updateModel id f ms)).map g = (alook k ms).map g := by
  rw [updateModel_alook]
  by_cases hk : k = id
  · rw [if_pos hk]
    cases alook k ms <;> simp [hf]
  · rw [if_neg hk]

theorem calcExtStep_alook_stripX (t2m : List (String × String))
    (c : Collection) (id k : String) :
    (alook k (calcExtStep t2m c id).models).map stripX =
      (alook k c.models).map stripX := by
  unfold calcExtStep
  cases h : alook id c.models with
  | none => rfl
  | some m =>
    exact updateModel_alook_map stripX
      (fun m2 => { m2 with externalSources :=
        (identifyExternalSources c.definedImports t2m m).1 })
      (fun m2 => rfl) id c.models k

theorem calcExt_alook_stripX (t2m : List (String × String)) :
    ∀ (ids : List String) (c : Collection) (k : String),
      (alook k (calcExternalSources t2m ids c).models).map stripX =
        (alook k c.models).map stripX
  | [], _, _ => rfl
  | id :: rest, c, k => by
    have hstep : calcExternalSources t2m (id :: rest) c =
        calcExternalSources t2m rest (calcExtStep t2m c id) := rfl
    rw [hstep, calcExt_alook_stripX t2m rest _ k, calcExtStep_alook_stripX]

theorem stripX_stripD : stripX ∘ stripD = stripX :=
  funext fun _ => rfl

theorem depthEvol_stripX {ms ms2 : List (String × SqlModel)}
    (h : depthEvol ms ms2) (k : String) :
    (alook k ms2).map stripX = (alook k ms).map stripX := by
  rw [← stripX_stripD, ← Option.map_map, ← Option.map_map, h k]

theorem buildGraph_alook_stripX (c : Collection) (k : String) :
    (alook k (buildDependencyGraph c).1.models).map stripX =
      ((alook k c.models).map (relFold k (graphRels c))).map stripX := by
  rw [buildGraph_eq]
  rw [depthEvol_stripX (calcModelDepths_evol _) k]
  rw [calcExt_alook_stripX]
  rw [graphMid_models, updateRels_alook]

theorem buildGraph_inv (c : Collection) :
    Inv (buildDependencyGraph c).1.models := by
  rw [buildGraph_eq]
  exact calcModelDepths_inv _

theorem buildGraph_upstream_mem_iff (c : Collection)
    (hfresh : ∀ p ∈ c.models,
      p.2.upstreamModels = [] ∧ p.2.downstreamModels = [])
    (P C : String) :
    (∃ mC, alook C (buildDependencyGraph c).1.models = some mC ∧
      P ∈ mC.upstreamModels) ↔ (C, P) ∈ graphRels c := by
  constructor
  · rintro ⟨mC, hmC, hP⟩
    have h := buildGraph_alook_stripX c C
    rw [hmC] at h
    cases h0 : alook C c.models with
    | none => rw [h0] at h; simp at h
    | some m0 =>
      rw [h0] at h
      simp only [Option.map_some'] at h
      injection h with h2
      have hup0 := congrArg SqlModel.upstreamModels h2
      have hup : mC.upstreamModels =
          (relFold C (graphRels c) m0).upstreamModels := hup0
      rw [hup, relFold_upstream_mem] at hP
      rcases hP with hP | hP
      · rw [(hfresh (C, m0) (alook_mem h0)).1] at hP
        cases hP
      · exact hP
  · intro hCP
    obtain ⟨hCids, m0, hm0, -⟩ := collectRels_mem.mp hCP
    have h := buildGraph_alook_stripX c C
    rw [hm0] at h
    cases hF : alook C (buildDependencyGraph c).1.models with
    | none => rw [hF] at h; simp at h
    | some mC =>
      rw [hF] at h
      simp only [Option.map_some'] at h
      injection h with h2
      have hup0 := congrArg SqlModel.upstreamModels h2
      have hup : mC.upstreamModels =
          (relFold C (graphRels c) m0).upstreamModels := hup0
      refine ⟨mC, rfl, ?_⟩
      rw [hup, relFold_upstream_mem]
      exact Or.inr hCP

theorem buildGraph_downstream_mem_iff (c : Collection)
    (hfresh : ∀ p ∈ c.models,
      p.2.upstreamModels = [] ∧ p.2.downstreamModels = [])
    (P C : String) :
    (∃ mP, alook P (buildDependencyGraph c).1.models = some mP ∧
      C ∈ mP.downstreamModels) ↔ (C, P) ∈ graphRels c := by
  constructor
  · rintro ⟨mP, hmP, hC⟩
    have h := buildGraph_alook_stripX c P
    rw [hmP] at h
    cases h0 : alook P c.models with
    | none => rw [h0] at h; simp at h
    | some m0 =>
      rw [h0] at h
      simp only [Option.map_some'] at h
      injection h with h2
      have hdown0 := congrArg SqlModel.downstreamModels h2
      have hdown : mP.downstreamModels =
          (relFold P (graphRels c) m0).downstreamModels := hdown0
      rw [hdown, relFold_downstream_mem] at hC
      rcases hC with hC | hC
      · rw [(hfresh (P, m0) (alook_mem h0)).2] at hC
        cases hC
      · exact hC
  · intro hCP
    obtain ⟨-, m, hm, ref, href, ht2m⟩ := collectRels_mem.mp hCP
    have hPids : P ∈ c.models.map Prod.fst := t2m_value_mem_ids ht2m
    obtain ⟨m0, hm0⟩ :=
      Option.isSome_iff_exists.mp (alook_isSome_of_mem_keys hPids)
    have h := buildGraph_alook_stripX c P
    rw [hm0] at h
    cases hF : alook P (buildDependencyGraph c).1.models with
    | none => rw [hF] at h; simp at h
    | some mP =>
      rw [hF] at h
      simp only [Option.map_some'] at h
      injection h with h2
      have hdown0 := congrArg SqlModel.downstreamModels h2
      have hdown : mP.downstreamModels =
          (relFold P (graphRels c) m0).downstreamModels := hdown0
      refine ⟨mP, rfl, ?_⟩
      rw [hdown, relFold_downstream_mem]
      exact Or.inr hCP

theorem buildGraph_model_char (c : Collection)
    (hnd : (c.models.map Prod.fst).Nodup) {id : String} {m : SqlModel}
    (hm : alook id (buildDependencyGraph c).1.models = some m) :
    ∃ m2, alook id (graphMid c).models = some m2 ∧
      m.referencedTables = m2.referencedTables ∧
      m.externalSources =
        (identifyExternalSources c.definedImports
          (buildTableToModelMap c.models (c.models.map Prod.fst)) m2).1 ∧
      ∀ r, (r ∈ lookupSet id (buildDependencyGraph c).1.missingImports ↔
        r ∈ (identifyExternalSources c.definedImports
          (buildTableToModelMap c.models (c.models.map Prod.fst)) m2).2) := by
  rw [buildGraph_eq] at hm
  obtain ⟨m3, hm3, he1, he2, he3, he4, he5, he6⟩ :=
    depthEvol_elim (calcModelDepths_evol _) hm
  have hid_mem : id ∈ c.models.map Prod.fst := by
    have h1 := mem_keys_of_alook_isSome (by rw [hm3]; rfl :
      (alook id (calcExternalSources
        (buildTableToModelMap c.models (c.models.map Prod.fst))
        (c.models.map Prod.fst) (graphMid c)).models).isSome)
    rw [calcExt_keys, graphMid_models, updateRels_keys] at h1
    exact h1
  have hpre : (alook id (graphMid c).models).isSome := by
    apply alook_isSome_of_mem_keys
    rw [graphMid_models, updateRels_keys]
    exact hid_mem
  obtain ⟨m2, hm2⟩ := Option.isSome_iff_exists.mp hpre
  obtain ⟨hchar_m, hchar_miss⟩ :=
    ((calcExt_char (buildTableToModelMap c.models (c.models.map Prod.fst))
      (c.models.map Prod.fst) (graphMid c) hnd).2.2) id hid_mem m2 hm2
  rw [graphMid_definedImports] at hchar_m hchar_miss
  rw [hm3] at hchar_m
  injection hchar_m with hm3eq
  refine ⟨m2, hm2, ?_, ?_, ?_⟩
  · rw [he3, hm3eq]
  · rw [he6, hm3eq]
  · intro r
    have hfin : lookupSet id (buildDependencyGraph c).1.missingImports =
        lookupSet id (calcExternalSources
          (buildTableToModelMap c.models (c.models.map Prod.fst))
          (c.models.map Prod.fst) (graphMid c)).missingImports := by
      rw [buildGraph_eq, (calcModelDepths_const _).2.2.2]
    rw [hfin]
    unfold lookupSet
    rw [hchar_miss, graphMid_missingImports]
    by_cases hmiss : (identifyExternalSources c.definedImports
        (buildTableToModelMap c.models (c.models.map Prod.fst)) m2).2 = []
    · rw [if_pos hmiss, hmiss]
      simp
    · rw [if_neg hmiss]

/-! ## Concrete collections used to instantiate the graph claims. -/

/-- A two-model chain: model B references A's table. -/
def cChain : Collection :=
  Collection.mk
    [("A", SqlModel.mk "a" none [] [] [] [] none),
     ("B", SqlModel.mk "b" none ["public.a"] [] [] [] none)]
    [] [] [] []

/-- The record stored under "A" after the graph build on `cChain`. -/
def mAChain : SqlModel := SqlModel.mk "a" none [] [] ["B"] [] (some 0)

/-- The record stored under "B" after the graph build on `cChain`. -/
def mBChain : SqlModel :=
  SqlModel.mk "b" none ["public.a"] ["A"] [] [] (some 1)

/-- A model referencing a table that resolves to no model and is not among
the defined imports. -/
def cMiss : Collection :=
  Collection.mk
    [("M", SqlModel.mk "m" none ["ext.src"] [] [] [] none)]
    [] [] [] []

/-- The record stored under "M" after the graph build on `cMiss`. -/
def mMiss : SqlModel :=
  SqlModel.mk "m" none ["ext.src"] [] [] ["ext.src"] (some 0)

/-- C1: after `build_dependency_graph` (which ends by calling
`calculate_model_depths`), every stored model with an empty upstream set
has depth 0, and every stored model with depth `d + 1` has all the models
stored under its upstream ids assigned a depth at most `d`, with `d`
attained — that is, the maximum of the upstream depths is `d`. -/
theorem buildGraph_depth_invariant (c : Collection) (id : String)
    (m : SqlModel)
    (hm : alook id (buildDependencyGraph c).1.models = some m) :
    (m.upstreamModels = [] → m.depth = some 0) ∧
      (∀ d, m.depth = some (d + 1) →
        (∀ u ∈ m.upstreamModels, ∀ mu,
          alook u (buildDependencyGraph c).1.models = some mu →
          ∃ du, mu.depth = some du ∧ du ≤ d) ∧
        (∃ u ∈ m.upstreamModels, ∃ mu,
          alook u (buildDependencyGraph c).1.models = some mu ∧
          mu.depth = some d)) := by
  obtain ⟨h1, h2, h3⟩ := buildGraph_inv c id m hm
  exact ⟨h1, h3⟩

theorem buildGraph_depth_invariant_witness :
    alook "B" (buildDependencyGraph cChain).1.models = some mBChain ∧
      alook "A" (buildDependencyGraph cChain).1.models = some mAChain ∧
      mBChain.depth = some (0 + 1) ∧
      (∃ du, mAChain.depth = some du ∧ du ≤ 0) := by
  refine ⟨by decide, by decide, by decide, ?_⟩
  have h := buildGraph_depth_invariant cChain "B" mBChain (by decide)
  exact (h.2 0 (by decide)).1 "A" (by decide) mAChain (by decide)

/-- C2: after `build_dependency_graph` on a collection whose records enter
with empty neighbourhood sets (as the loader constructs them), the edge
maps and the per-record neighbourhood sets agree both ways: C is in the
child-map entry of P iff P is in the parent-map entry of C, iff C is in
the downstream set of the record stored under P, iff P is in the upstream
set of the record stored under C. -/
theorem buildGraph_edge_maps_agree (c : Collection)
    (hfresh : ∀ p ∈ c.models,
      p.2.upstreamModels = [] ∧ p.2.downstreamModels = [])
    (P C : String) :
    (C ∈ lookupSet P (buildDependencyGraph c).1.childMap ↔
        P ∈ lookupSet C (buildDependencyGraph c).1.parentMap) ∧
      (C ∈ lookupSet P (buildDependencyGraph c).1.childMap ↔
        ∃ mP, alook P (buildDependencyGraph c).1.models = some mP ∧
          C ∈ mP.downstreamModels) ∧
      (C ∈ lookupSet P (buildDependencyGraph c).1.childMap ↔
        ∃ mC, alook C (buildDependencyGraph c).1.models = some mC ∧
          P ∈ mC.upstreamModels) := by
  have hchild : C ∈ lookupSet P (buildDependencyGraph c).1.childMap ↔
      (C, P) ∈ graphRels c := by
    have h1 : (buildDependencyGraph c).1.childMap =
        buildChildMap (graphRels c) := by
      rw [buildGraph_eq, (calcModelDepths_const _).1,
        (calcExt_const _ _ _).1, graphMid_childMap]
    rw [h1, buildChildMap_mem]
  have hparent : P ∈ lookupSet C (buildDependencyGraph c).1.parentMap ↔
      (C, P) ∈ graphRels c := by
    have h1 : (buildDependencyGraph c).1.parentMap =
        buildParentMap (graphRels c) := by
      rw [buildGraph_eq, (calcModelDepths_const _).2.1,
        (calcExt_const _ _ _).2.1, graphMid_parentMap]
    rw [h1, buildParentMap_mem]
  exact ⟨hchild.trans hparent.symm,
    hchild.trans (buildGraph_downstream_mem_iff c hfresh P C).symm,
    hchild.trans (buildGraph_upstream_mem_iff c hfresh P C).symm⟩

theorem buildGraph_edge_maps_agree_witness :
    "B" ∈ lookupSet "A" (buildDependencyGraph cChain).1.childMap ∧
      (("B" ∈ lookupSet "A" (buildDependencyGraph cChain).1.childMap ↔
          "A" ∈ lookupSet "B" (buildDependencyGraph cChain).1.parentMap) ∧
        ("B" ∈ lookupSet "A" (buildDependencyGraph cChain).1.childMap ↔
          ∃ mP, alook "A" (buildDependencyGraph cChain).1.models = some mP ∧
            "B" ∈ mP.downstreamModels) ∧
        ("B" ∈ lookupSet "A" (buildDependencyGraph cChain).1.childMap ↔
          ∃ mC, alook "B" (buildDependencyGraph cChain).1.models = some mC ∧
            "A" ∈ mC.upstreamModels)) := by
  exact ⟨by decide, buildGraph_edge_maps_agree cChain (by decide) "A" "B"⟩

/-- C3: after `build_dependency_graph` on a collection with distinct model
ids, a reference of a stored model is in the missing-imports entry for
that model exactly when it is in the model's external sources and not in
the collection's defined-imports set. -/
theorem buildGraph_missing_imports (c : Collection)
    (hnd : (c.models.map Prod.fst).Nodup)
    (id : String) (m : SqlModel) (r : String)
    (hm : alook id (buildDependencyGraph c).1.models = some m)
    (_hr : r ∈ m.referencedTables) :
    r ∈ lookupSet id (buildDependencyGraph c).1.missingImports ↔
      r ∈ m.externalSources ∧
        r ∉ (buildDependencyGraph c).1.definedImports := by
  obtain ⟨m2, hm2, hrefs, hext, hmiss⟩ := buildGraph_model_char c hnd hm
  have hdef : (buildDependencyGraph c).1.definedImports =
      c.definedImports := by
    rw [buildGraph_eq, (calcModelDepths_const _).2.2.1,
      (calcExt_const _ _ _).2.2, graphMid_definedImports]
  rw [hmiss r, hdef, hext, identify_ext_mem, identify_miss_mem]
  tauto

theorem buildGraph_missing_imports_witness :
    alook "M" (buildDependencyGraph cMiss).1.models = some mMiss ∧
      "ext.src" ∈ mMiss.referencedTables ∧
      "ext.src" ∈ lookupSet "M" (buildDependencyGraph cMiss).1.missingImports ∧
      ("ext.src" ∈ lookupSet "M"
          (buildDependencyGraph cMiss).1.missingImports ↔
        "ext.src" ∈ mMiss.externalSources ∧
          "ext.src" ∉ (buildDependencyGraph cMiss).1.definedImports) := by
  refine ⟨by decide, by decide, by decide, ?_⟩
  exact buildGraph_missing_imports cMiss (by decide) "M" mMiss "ext.src"
    (by decide) (by decide)

/-! ## C7: termination of the depth computation. -/

/-- A two-model cycle, recorded directly in the upstream sets. -/
def cCyc : Collection :=
  Collection.mk
    [("A", SqlModel.mk "a" none [] ["B"] [] [] none),
     ("B", SqlModel.mk "b" none [] ["A"] [] [] none)]
    [] [] [] []

/-- A model whose upstream set holds an id absent from the collection. -/
def cGhost : Collection :=
  Collection.mk
    [("M", SqlModel.mk "m" none [] ["ghost"] [] [] none)]
    [] [] [] []

/-- C7 (amended): on every collection whose recorded upstream references
all resolve to stored model ids, `calculate_model_depths` terminates — the
`made_changes` loop reaches a pass with no changes within `|models| + 1`
passes (each changing pass assigns at least one depth) — and models on a
cycle, or with a cyclic ancestor, end the run with their depth still
unassigned rather than causing failure. -/
theorem calcModelDepths_terminates (c : Collection)
    (hc : upClosed c.models) :
    (calcModelDepths c).2 = true ∧
      (∀ x, Relation.TransGen (upstreamOf (calcModelDepths c).1.models) x x →
        depthOf (calcModelDepths c).1.models x = none) ∧
      (∀ y x,
        Relation.TransGen (upstreamOf (calcModelDepths c).1.models) y x →
        Relation.TransGen (upstreamOf (calcModelDepths c).1.models) x x →
        depthOf (calcModelDepths c).1.models y = none) := by
  refine ⟨calcModelDepths_stable c hc, ?_, ?_⟩
  · intro x hcyc
    exact cycle_depth_none (calcModelDepths_inv c) hcyc
  · intro y x hyx hxx
    exact downstream_cycle_depth_none (calcModelDepths_inv c) hyx hxx

theorem calcModelDepths_terminates_witness :
    upClosed cCyc.models ∧
      (calcModelDepths cCyc).2 = true ∧
      depthOf (calcModelDepths cCyc).1.models "A" = none := by
  refine ⟨by unfold upClosed; decide, ?_, ?_⟩
  · exact (calcModelDepths_terminates cCyc (by unfold upClosed; decide)).1
  · have step1 : upstreamOf (calcModelDepths cCyc).1.models "A" "B" :=
      ⟨SqlModel.mk "a" none [] ["B"] [] [] none, by decide, by decide⟩
    have step2 : upstreamOf (calcModelDepths cCyc).1.models "B" "A" :=
      ⟨SqlModel.mk "b" none [] ["A"] [] [] none, by decide, by decide⟩
    exact (calcModelDepths_terminates cCyc (by unfold upClosed; decide)).2.1
      "A" (Relation.TransGen.tail (Relation.TransGen.single step1) step2)

/-- C7 counterexample to the claim as stated: on a collection holding an
upstream reference to an id absent from the map, a full pass reports
`made_changes = true` while leaving the state unchanged (the model's
depth is set from a `None` maximum, i.e. stays `None`), so the Rust
`while made_changes` loop repeats the identical pass forever; the fuelled
model never reaches the exit condition within the fuel that bounds every
terminating run. -/
theorem calcModelDepths_ghost_counterexample :
    ¬ upClosed cGhost.models ∧
      onePass ["M"] (markSourceNodes ["M"] (resetDepths cGhost.models)) =
        (markSourceNodes ["M"] (resetDepths cGhost.models), true) ∧
      (calcModelDepths cGhost).2 = false := by
  refine ⟨by unfold upClosed; decide, by decide, by decide⟩

/-! ## C10: a self-referencing model. -/

/-- A model whose SQL references its own resolution key `public.s`. -/
def cSelf : Collection :=
  Collection.mk
    [("S", SqlModel.mk "s" none ["public.s"] [] [] [] none)]
    [] [] [] []

/-- C10: a stored model whose referenced tables contain its own resolution
key `<schema or "public">.<name>` — provided that key resolves to it, i.e.
no other stored model shares the key — receives a self-edge from
`build_dependency_graph`: the model id ends up in its own upstream and
downstream sets, and `calculate_model_depths` leaves its depth
unassigned. -/
theorem buildGraph_self_reference (c : Collection) (id : String)
    (m : SqlModel) (hm : alook id c.models = some m)
    (href : tableKey m ∈ m.referencedTables)
    (huniq : ∀ p ∈ c.models, tableKey p.2 = tableKey m → p.1 = id) :
    ∃ mf, alook id (buildDependencyGraph c).1.models = some mf ∧
      id ∈ mf.upstreamModels ∧ id ∈ mf.downstreamModels ∧
      mf.depth = none := by
  have hid_mem : id ∈ c.models.map Prod.fst :=
    mem_keys_of_alook_isSome (by rw [hm]; rfl)
  have ht2m : alook (tableKey m)
      (buildTableToModelMap c.models (c.models.map Prod.fst)) = some id := by
    apply alook_eq_of_all
    · exact ⟨(tableKey m, id),
        mem_buildTableToModelMap.mpr ⟨id, hid_mem, m, hm, rfl⟩, rfl⟩
    · rintro p hp hkey
      rcases mem_buildTableToModelMap.mp hp with ⟨i, hi, mi, hmi, rfl⟩
      exact huniq (i, mi) (alook_mem hmi) hkey
  have hrel : (id, id) ∈ graphRels c :=
    collectRels_mem.mpr ⟨hid_mem, m, hm, tableKey m, href, ht2m⟩
  have h := buildGraph_alook_stripX c id
  rw [hm] at h
  cases hF : alook id (buildDependencyGraph c).1.models with
  | none => rw [hF] at h; simp at h
  | some mf =>
    rw [hF] at h
    simp only [Option.map_some'] at h
    injection h with h2
    have hup0 := congrArg SqlModel.upstreamModels h2
    have hup : mf.upstreamModels =
        (relFold id (graphRels c) m).upstreamModels := hup0
    have hdown0 := congrArg SqlModel.downstreamModels h2
    have hdown : mf.downstreamModels =
        (relFold id (graphRels c) m).downstreamModels := hdown0
    have hupm : id ∈ mf.upstreamModels := by
      rw [hup, relFold_upstream_mem]
      exact Or.inr hrel
    have hdownm : id ∈ mf.downstreamModels := by
      rw [hdown, relFold_downstream_mem]
      exact Or.inr hrel
    have hdep : mf.depth = none := by
      have hcyc : Relation.TransGen
          (upstreamOf (buildDependencyGraph c).1.models) id id :=
        Relation.TransGen.single ⟨mf, hF, hupm⟩
      have hnone := cycle_depth_none (buildGraph_inv c) hcyc
      rw [depthOf_eq hF] at hnone
      exact hnone
    exact ⟨mf, rfl, hupm, hdownm, hdep⟩

theorem buildGraph_self_reference_witness :
    tableKey (SqlModel.mk "s" none ["public.s"] [] [] [] none) ∈
        (SqlModel.mk "s" none ["public.s"] [] [] [] none).referencedTables ∧
      ∃ mf, alook "S" (buildDependencyGraph cSelf).1.models = some mf ∧
        "S" ∈ mf.upstreamModels ∧ "S" ∈ mf.downstreamModels ∧
        mf.depth = none := by
  refine ⟨by decide, ?_⟩
  exact buildGraph_self_reference cSelf "S"
    (SqlModel.mk "s" none ["public.s"] [] [] [] none)
    (by decide) (by decide) (by decide)

end FF
